import Mathlib

/-!
# Verification of the lidi-af diode transport core

This file embeds the core data model and worker loops of the lidi-af
repository (Rust) shallowly in Lean 4 and proves, or refutes, the frozen
claims about them.

Machine integers are modelled as `Nat` with explicit bounds (`< 2^32` for
`u32`, `< 2^16` for `u16`, `% 256` for `u8`); a byte vector `Vec<u8>` is a
`List Nat` whose entries are the byte values.  Fallible Rust code is
modelled with `Option` / `Except`; a reachable index-out-of-bounds is
modelled as `none` (the corresponding Rust code would abort).
-/

/-! ## Little-endian 32-bit encoding (src/protocol.rs uses `u32::to_le_bytes`
and `u32::from_le_bytes`). -/

/-- The four little-endian bytes of a `u32` value, as in `u32::to_le_bytes`. -/
def u32le (n : Nat) : List Nat :=
  [n % 256, n / 256 % 256, n / 2 ^ 16 % 256, n / 2 ^ 24 % 256]

/-- Reassemble a `u32` from four little-endian bytes, as in `u32::from_le_bytes`. -/
def le4 (b0 b1 b2 b3 : Nat) : Nat :=
  b0 + 256 * b1 + 2 ^ 16 * b2 + 2 ^ 24 * b3

theorem le4_u32le (n : Nat) (h : n < 2 ^ 32) :
    le4 (n % 256) (n / 256 % 256) (n / 2 ^ 16 % 256) (n / 2 ^ 24 % 256) = n := by
  unfold le4
  omega

/-! ## Block types (src/protocol.rs, `BlockType` and the `ID_*` constants). -/

/-- The five protocol block kinds of `protocol::BlockType`. -/
inductive BlockType where
  | heartbeat
  | start
  | data
  | abort
  | end_
deriving DecidableEq, Repr

/-- `BlockType::serialized`: the wire byte of each block kind
(`ID_HEARTBEAT = 0x00` .. `ID_END = 0x04`). -/
def BlockType.serialized : BlockType → Nat
  | .heartbeat => 0x00
  | .start => 0x01
  | .data => 0x02
  | .abort => 0x03
  | .end_ => 0x04

/-- `SERIALIZE_OVERHEAD = 4 + 1 + 4` from src/protocol.rs. -/
def SERIALIZE_OVERHEAD : Nat := 4 + 1 + 4

/-! ## Block construction (src/protocol.rs, `Block::new`).

`tl` stands for the `transfer_length` field of the `RaptorQ` parameter
struct.  The `data = None` branch allocates `transfer_length` zero bytes and
writes `client_id` (little endian) at offsets 0..3 and the kind byte at
offset 4.  The `data = Some` branch builds
`client_id LE ++ [kind] ++ len LE ++ data` and, when shorter than the
reserved capacity `transfer_length`, pads with zeros up to it. -/

/-- `Block::new`.  The resulting block is its byte vector (`Block(Vec<u8>)`). -/
def blockNew (tl : Nat) (kind : BlockType) (clientId : Nat) (data : Option (List Nat)) :
    List Nat :=
  match data with
  | none =>
      let bytes := u32le clientId
      (((((List.replicate tl 0).set 0 (bytes.getD 0 0)).set 1 (bytes.getD 1 0)).set 2
            (bytes.getD 2 0)).set 3 (bytes.getD 3 0)).set 4 kind.serialized
  | some d =>
      let content := u32le clientId ++ [kind.serialized] ++ u32le d.length ++ d
      if content.length < tl then content ++ List.replicate (tl - content.length) 0
      else content

/-! ## Block accessors (src/protocol.rs).

`Block::client_id` indexes bytes 0..3, `Block::payload_len` indexes bytes
5..8, `Block::block_type` uses `self.0.get(4)`, and `Block::payload` slices
`self.0[9 .. 9 + payload_len]`.  Indexing out of bounds in Rust aborts; we
model each accessor with `Option`, `none` marking the reachable
out-of-bounds abort.  `Block::block_type` itself never aborts: it uses
`get` and returns a typed error on an unknown kind byte. -/

/-- `Block::client_id` (indexes bytes 0,1,2,3; aborts when the vector is
shorter than 4 bytes). -/
def clientIdOf (b : List Nat) : Option Nat := do
  let b0 ← b.get? 0
  let b1 ← b.get? 1
  let b2 ← b.get? 2
  let b3 ← b.get? 3
  pure (le4 b0 b1 b2 b3)

/-- `Block::payload_len` (indexes bytes 5,6,7,8; aborts when the vector is
shorter than 9 bytes). -/
def payloadLenOf (b : List Nat) : Option Nat := do
  let b5 ← b.get? 5
  let b6 ← b.get? 6
  let b7 ← b.get? 7
  let b8 ← b.get? 8
  pure (le4 b5 b6 b7 b8)

/-- `Block::block_type`: `self.0.get(4)` matched against the five id bytes;
an unknown (or missing) byte yields `Err(InvalidBlockType(b))`. -/
def blockTypeOf (b : List Nat) : Except (Option Nat) BlockType :=
  match b.get? 4 with
  | some 0x00 => .ok .heartbeat
  | some 0x01 => .ok .start
  | some 0x02 => .ok .data
  | some 0x03 => .ok .abort
  | some 0x04 => .ok .end_
  | other => .error other

/-- `Block::payload`: slices `self.0[SERIALIZE_OVERHEAD .. SERIALIZE_OVERHEAD + len]`
after reading `payload_len`; the slice aborts unless `9 + len ≤ length`. -/
def payloadOf (b : List Nat) : Option (List Nat) := do
  let len ← payloadLenOf b
  if SERIALIZE_OVERHEAD + len ≤ b.length then pure ((b.drop SERIALIZE_OVERHEAD).take len)
  else none

/-! ## Shape lemmas for `blockNew` -/

theorem blockNew_some_def (tl : Nat) (kind : BlockType) (cid : Nat) (d : List Nat) :
    blockNew tl kind cid (some d) =
      if (u32le cid ++ [kind.serialized] ++ u32le d.length ++ d).length < tl
      then (u32le cid ++ [kind.serialized] ++ u32le d.length ++ d) ++
        List.replicate (tl - (u32le cid ++ [kind.serialized] ++ u32le d.length ++ d).length) 0
      else u32le cid ++ [kind.serialized] ++ u32le d.length ++ d := rfl

theorem blockNew_some_eq (tl : Nat) (kind : BlockType) (cid : Nat) (d : List Nat) :
    blockNew tl kind cid (some d) =
      cid % 256 :: cid / 256 % 256 :: cid / 2 ^ 16 % 256 :: cid / 2 ^ 24 % 256 ::
      kind.serialized ::
      d.length % 256 :: d.length / 256 % 256 :: d.length / 2 ^ 16 % 256 ::
      d.length / 2 ^ 24 % 256 ::
      (d ++ List.replicate (tl - (9 + d.length)) 0) := by
  rw [blockNew_some_def]
  have hlen : (u32le cid ++ [kind.serialized] ++ u32le d.length ++ d).length
      = 9 + d.length := by
    simp [u32le]; omega
  rw [hlen]
  split
  · next h =>
      simp [u32le, List.append_assoc]
  · next h =>
      have h0 : tl - (9 + d.length) = 0 := by omega
      simp [u32le, h0, List.append_assoc]

theorem blockNew_none_eq (m : Nat) (kind : BlockType) (cid : Nat) :
    blockNew (m + 9) kind cid none =
      cid % 256 :: cid / 256 % 256 :: cid / 2 ^ 16 % 256 :: cid / 2 ^ 24 % 256 ::
      kind.serialized :: 0 :: 0 :: 0 :: 0 :: List.replicate m 0 := rfl

theorem blockTypeOf_blockNew_some (tl : Nat) (kind : BlockType) (cid : Nat) (d : List Nat) :
    blockTypeOf (blockNew tl kind cid (some d)) = .ok kind := by
  rw [blockNew_some_eq]
  cases kind <;> rfl

theorem clientIdOf_blockNew_some (tl : Nat) (kind : BlockType) (cid : Nat) (d : List Nat)
    (hcid : cid < 2 ^ 32) :
    clientIdOf (blockNew tl kind cid (some d)) = some cid := by
  rw [blockNew_some_eq]
  show some (le4 (cid % 256) (cid / 256 % 256) (cid / 2 ^ 16 % 256) (cid / 2 ^ 24 % 256))
      = some cid
  rw [le4_u32le cid hcid]

theorem payloadLenOf_blockNew_some (tl : Nat) (kind : BlockType) (cid : Nat) (d : List Nat)
    (hd : d.length < 2 ^ 32) :
    payloadLenOf (blockNew tl kind cid (some d)) = some d.length := by
  rw [blockNew_some_eq]
  show some (le4 (d.length % 256) (d.length / 256 % 256) (d.length / 2 ^ 16 % 256)
      (d.length / 2 ^ 24 % 256)) = some d.length
  rw [le4_u32le d.length hd]

theorem payloadOf_blockNew_some (tl : Nat) (kind : BlockType) (cid : Nat) (d : List Nat)
    (hd : d.length < 2 ^ 32) :
    payloadOf (blockNew tl kind cid (some d)) = some d := by
  unfold payloadOf
  rw [payloadLenOf_blockNew_some tl kind cid d hd]
  have hlen : (blockNew tl kind cid (some d)).length
      = 9 + (d.length + (tl - (9 + d.length))) := by
    rw [blockNew_some_eq]; simp; omega
  have hle : SERIALIZE_OVERHEAD + d.length ≤ (blockNew tl kind cid (some d)).length := by
    rw [hlen]; unfold SERIALIZE_OVERHEAD; omega
  simp only [Option.bind_eq_bind, Option.some_bind, hle, if_pos]
  rw [blockNew_some_eq]
  show some ((d ++ List.replicate (tl - (9 + d.length)) 0).take d.length) = some d
  rw [List.take_left]

theorem blockTypeOf_blockNew_none (tl : Nat) (kind : BlockType) (cid : Nat) (h : 9 ≤ tl) :
    blockTypeOf (blockNew tl kind cid none) = .ok kind := by
  obtain ⟨m, rfl⟩ : ∃ m, tl = m + 9 := ⟨tl - 9, by omega⟩
  rw [blockNew_none_eq]
  cases kind <;> rfl

theorem clientIdOf_blockNew_none (tl : Nat) (kind : BlockType) (cid : Nat) (h : 9 ≤ tl)
    (hcid : cid < 2 ^ 32) :
    clientIdOf (blockNew tl kind cid none) = some cid := by
  obtain ⟨m, rfl⟩ : ∃ m, tl = m + 9 := ⟨tl - 9, by omega⟩
  rw [blockNew_none_eq]
  show some (le4 (cid % 256) (cid / 256 % 256) (cid / 2 ^ 16 % 256) (cid / 2 ^ 24 % 256))
      = some cid
  rw [le4_u32le cid hcid]

theorem payloadLenOf_blockNew_none (tl : Nat) (kind : BlockType) (cid : Nat) (h : 9 ≤ tl) :
    payloadLenOf (blockNew tl kind cid none) = some 0 := by
  obtain ⟨m, rfl⟩ : ∃ m, tl = m + 9 := ⟨tl - 9, by omega⟩
  rw [blockNew_none_eq]
  rfl

theorem payloadOf_blockNew_none (tl : Nat) (kind : BlockType) (cid : Nat) (h : 9 ≤ tl) :
    payloadOf (blockNew tl kind cid none) = some [] := by
  unfold payloadOf
  rw [payloadLenOf_blockNew_none tl kind cid h]
  have hlen : 9 ≤ (blockNew tl kind cid none).length := by
    obtain ⟨m, rfl⟩ : ∃ m, tl = m + 9 := ⟨tl - 9, by omega⟩
    rw [blockNew_none_eq]; simp
  have hle : SERIALIZE_OVERHEAD + 0 ≤ (blockNew tl kind cid none).length := by
    unfold SERIALIZE_OVERHEAD; omega
  have hle' : SERIALIZE_OVERHEAD ≤ (blockNew tl kind cid none).length := by
    unfold SERIALIZE_OVERHEAD; omega
  simp [hle, hle']

/-- C2: constructing a block with `Block::new` and reading it back through
`block_type`, `client_id` and `payload` recovers the kind, the client id and
the payload bytes, for every kind and every payload of length at most
`transfer_length - 9`: parsing is a left inverse of serialisation. -/
theorem block_framing_roundtrip (tl : Nat) (kind : BlockType) (cid : Nat) (d : List Nat)
    (htl9 : 9 ≤ tl) (htl : tl < 2 ^ 32) (hcid : cid < 2 ^ 32)
    (hd : d.length ≤ tl - 9) :
    blockTypeOf (blockNew tl kind cid (some d)) = .ok kind ∧
    clientIdOf (blockNew tl kind cid (some d)) = some cid ∧
    payloadOf (blockNew tl kind cid (some d)) = some d := by
  have hdlen : d.length < 2 ^ 32 := by omega
  exact ⟨blockTypeOf_blockNew_some tl kind cid d,
    clientIdOf_blockNew_some tl kind cid d hcid,
    payloadOf_blockNew_some tl kind cid d hdlen⟩

theorem block_framing_roundtrip_witness :
    blockTypeOf (blockNew 16 .data 7 (some [1, 2, 3])) = .ok .data ∧
    clientIdOf (blockNew 16 .data 7 (some [1, 2, 3])) = some 7 ∧
    payloadOf (blockNew 16 .data 7 (some [1, 2, 3])) = some [1, 2, 3] :=
  block_framing_roundtrip 16 .data 7 [1, 2, 3] (by decide) (by decide) (by decide) (by decide)

/-! ## C10: validation behaviour of the accessors on arbitrary bytes.

`Block::deserialize` is the identity on the byte vector; the claim is about
which accessors abort on short inputs.  The claim as stated says
`client_id` requires at least 9 bytes; in the code `Block::client_id` only
indexes bytes 0..3, so 4 bytes already suffice. -/

/-- C10 counterexample: on the 4-byte vector `[0,0,0,0]` the `client_id`
accessor is total even though the vector is shorter than 9 bytes, refuting
the claim that `client_id` requires at least 9 bytes of input. -/
theorem deserialize_validation_counterexample :
    clientIdOf [0, 0, 0, 0] = some 0 ∧ ¬ 9 ≤ ([0, 0, 0, 0] : List Nat).length := by
  constructor
  · rfl
  · decide

/-- C10 (amended): `Block::deserialize` performs no validation; for a block
built from an arbitrary byte vector `v`, the `payload` accessor is total
exactly when `v` has length at least `9 + payload_len` (the length recorded
little-endian at bytes 5..9), `payload_len` is total exactly when `v` has at
least 9 bytes, and `client_id` is total exactly when `v` has at least 4
bytes (not 9); outside those bounds the index-out-of-bounds abort is
reachable. -/
theorem deserialize_validation (v : List Nat) :
    ((payloadOf v).isSome ↔ ∃ len, payloadLenOf v = some len ∧ 9 + len ≤ v.length) ∧
    ((payloadLenOf v).isSome ↔ 9 ≤ v.length) ∧
    ((clientIdOf v).isSome ↔ 4 ≤ v.length) := by
  rcases v with _ | ⟨b0, _ | ⟨b1, _ | ⟨b2, _ | ⟨b3, _ | ⟨b4, _ | ⟨b5, _ | ⟨b6, _ |
    ⟨b7, _ | ⟨b8, rest⟩⟩⟩⟩⟩⟩⟩⟩⟩ <;>
    simp [payloadOf, payloadLenOf, clientIdOf, SERIALIZE_OVERHEAD] <;> omega

/-! ## FEC parameter derivation (src/protocol.rs, `RaptorQ::new`).

Constants: `PACKET_HEADER_SIZE = 28`, `RAPTORQ_ALIGNMENT = 8`,
`RAPTORQ_HEADER_SIZE = 4`.  The arithmetic is `u16`/`u32` with overflow
checks: `mtu - 32` underflows for `mtu < 32` (abort), `block_size /
max_packet_size` divides by zero for `max_packet_size = 0` (abort), and the
repair numerator `(transfer_length / 100) * repair_percentage` can overflow
`u32` (abort).  The two `u16::try_from` failures are returned as protocol
errors (`Error::Other`); an abort is not an error return, so the model
distinguishes the two. -/

def PACKET_HEADER_SIZE : Nat := 20 + 8
def RAPTORQ_ALIGNMENT : Nat := 8
def RAPTORQ_HEADER_SIZE : Nat := 4

/-- The four frozen numeric fields of the `RaptorQ` parameter struct. -/
structure RQParams where
  maxPacketSize : Nat
  symbolCount : Nat
  transferLength : Nat
  nbRepairPackets : Nat
deriving DecidableEq, Repr

/-- Outcome of `RaptorQ::new`: an `ok` value, an error return
(`invalidParameter`, the `u16::try_from` failure path), or an arithmetic
abort (`crash`: subtraction underflow, division by zero, or `u32`
multiplication overflow). -/
inductive RQResult where
  | ok (p : RQParams)
  | invalidParameter
  | crash
deriving DecidableEq, Repr

/-- `RaptorQ::new(mtu, block_size, repair_percentage)` from src/protocol.rs. -/
def raptorqNew (mtu blockSize repairPercent : Nat) : RQResult :=
  if mtu < PACKET_HEADER_SIZE + RAPTORQ_HEADER_SIZE then .crash
  else
    let mps0 := mtu - PACKET_HEADER_SIZE - RAPTORQ_HEADER_SIZE
    let mps := mps0 - mps0 % RAPTORQ_ALIGNMENT
    if mps = 0 then .crash
    else
      let sc := blockSize / mps
      if 2 ^ 16 ≤ sc then .invalidParameter
      else
        let tl := mps * sc
        let repairNum := (tl / 100) * repairPercent
        if 2 ^ 32 ≤ repairNum then .crash
        else
          let rc := repairNum / mps
          if 2 ^ 16 ≤ rc then .invalidParameter
          else .ok ⟨mps, sc, tl, rc⟩

/-- C6 counterexample: `mtu = 40`, `block_size = 96`, `repair_percent = 100`
is accepted by `RaptorQ::new` with `nb_repair_packets = 0`, while the spec
formula `(transfer_length × repair_percent / 100) / max_packet_size`
computed in exact integer arithmetic gives `(96 × 100 / 100) / 8 = 12`. -/
theorem fec_parameters_counterexample :
    raptorqNew 40 96 100 = .ok ⟨8, 12, 96, 0⟩ ∧ 96 * 100 / 100 / 8 = 12 ∧ (0 : Nat) ≠ 12 := by
  refine ⟨?_, by decide, by decide⟩
  decide

/-- C6 (amended): for every `(mtu, block_size, repair_percent)` accepted by
`RaptorQ::new`, the frozen parameters satisfy: `max_packet_size` is
`mtu - 28 - 4` rounded down to a multiple of 8; `symbol_count` is
`block_size / max_packet_size` (integer division); `transfer_length` is
`max_packet_size × symbol_count`; and `repair_count` is
`((transfer_length / 100) × repair_percent) / max_packet_size`, where the
division by 100 is applied to `transfer_length` *before* the multiplication
by `repair_percent` (not after it, as the claim's formula would have it). -/
theorem fec_parameters_formulas (mtu blockSize repairPercent : Nat) (p : RQParams)
    (h : raptorqNew mtu blockSize repairPercent = .ok p) :
    p.maxPacketSize = (mtu - 28 - 4) - (mtu - 28 - 4) % 8 ∧
    p.symbolCount = blockSize / p.maxPacketSize ∧
    p.transferLength = p.maxPacketSize * p.symbolCount ∧
    p.nbRepairPackets = (p.transferLength / 100) * repairPercent / p.maxPacketSize := by
  unfold raptorqNew PACKET_HEADER_SIZE RAPTORQ_HEADER_SIZE RAPTORQ_ALIGNMENT at h
  simp only [] at h
  split at h
  · exact absurd h (by simp)
  · split at h
    · exact absurd h (by simp)
    · split at h
      · exact absurd h (by simp)
      · split at h
        · exact absurd h (by simp)
        · split at h
          · exact absurd h (by simp)
          · rw [RQResult.ok.injEq] at h
            subst h
            dsimp only
            refine ⟨by omega, rfl, rfl, rfl⟩

theorem fec_parameters_formulas_witness :
    raptorqNew 1500 734928 2 = .ok ⟨1464, 502, 734928, 10⟩ ∧
    (1464 = (1500 - 28 - 4) - (1500 - 28 - 4) % 8 ∧
     502 = 734928 / 1464 ∧
     734928 = 1464 * 502 ∧
     10 = 734928 / 100 * 2 / 1464) := by
  have hok : raptorqNew 1500 734928 2 = .ok ⟨1464, 502, 734928, 10⟩ := by decide
  exact ⟨hok, fec_parameters_formulas 1500 734928 2 ⟨1464, 502, 734928, 10⟩ hok⟩

/-! ## C7: the failure conditions of `RaptorQ::new`. -/

/-- The code-derived `max_packet_size`: `mtu - 28 - 4` rounded down to a
multiple of 8. -/
def rqMps (mtu : Nat) : Nat :=
  mtu - PACKET_HEADER_SIZE - RAPTORQ_HEADER_SIZE -
    (mtu - PACKET_HEADER_SIZE - RAPTORQ_HEADER_SIZE) % RAPTORQ_ALIGNMENT

/-- The code-derived `symbol_count`. -/
def rqSc (mtu blockSize : Nat) : Nat := blockSize / rqMps mtu

/-- The code-derived 32-bit numerator `(transfer_length / 100) * repair_percentage`. -/
def rqNum (mtu blockSize repairPercent : Nat) : Nat :=
  rqMps mtu * rqSc mtu blockSize / 100 * repairPercent

/-- The code-derived `nb_repair_packets`. -/
def rqRc (mtu blockSize repairPercent : Nat) : Nat :=
  rqNum mtu blockSize repairPercent / rqMps mtu

/-- C7 counterexample: at `mtu = 36` the derived `max_packet_size` is 0 (the
mtu is too small to leave a positive packet size), yet `RaptorQ::new` does
not return an `InvalidParameter` error: it divides by zero and aborts. -/
theorem raptorq_error_counterexample :
    rqMps 36 = 0 ∧ raptorqNew 36 1000 2 = .crash ∧
    RQResult.crash ≠ RQResult.invalidParameter := by
  refine ⟨by decide, by decide, by decide⟩

/-- C7 (amended): `RaptorQ::new` returns an error exactly when the
code-derived `symbol_count` overflows 16 bits, or the 32-bit repair
numerator stays in range but the code-derived `repair_count` overflows 16
bits; when the mtu is too small to leave a positive `max_packet_size`
(`mtu < 40`), or the repair numerator overflows 32 bits, construction
aborts on an arithmetic fault instead of returning an error; in all other
cases it succeeds. -/
theorem raptorq_error_conditions (mtu blockSize repairPercent : Nat) :
    (raptorqNew mtu blockSize repairPercent = .invalidParameter ↔
      (40 ≤ mtu ∧ (2 ^ 16 ≤ rqSc mtu blockSize ∨
        (rqSc mtu blockSize < 2 ^ 16 ∧ rqNum mtu blockSize repairPercent < 2 ^ 32 ∧
          2 ^ 16 ≤ rqRc mtu blockSize repairPercent)))) ∧
    (raptorqNew mtu blockSize repairPercent = .crash ↔
      (mtu < 40 ∨ (rqSc mtu blockSize < 2 ^ 16 ∧
        2 ^ 32 ≤ rqNum mtu blockSize repairPercent))) ∧
    ((∃ p, raptorqNew mtu blockSize repairPercent = .ok p) ↔
      (40 ≤ mtu ∧ rqSc mtu blockSize < 2 ^ 16 ∧
        rqNum mtu blockSize repairPercent < 2 ^ 32 ∧
        rqRc mtu blockSize repairPercent < 2 ^ 16)) := by
  unfold raptorqNew rqRc rqNum rqSc rqMps PACKET_HEADER_SIZE RAPTORQ_HEADER_SIZE
    RAPTORQ_ALIGNMENT
  rw [show (20 : Nat) + 8 = 28 from rfl]
  simp only []
  split_ifs with h1 h2 h3 h4 h5 <;>
    refine ⟨?_, ?_, ?_⟩ <;> simp <;> omega

/-! ## Sender per-client framer (src/send/client.rs).

The framer sends one `Start` block, then loops: `read` into
`buffer[cursor..]`; on `read > 0` it extends the buffer and, unless `flush`
is set or the buffer is full, keeps reading; otherwise it emits a block of
kind `Data` (`read > 0`) or `End` (`read == 0`, i.e. EOF) carrying
`buffer[..cursor]` — note the `End` block carries whatever is still
buffered.  We model the sequence of values returned by successive
`client.read` calls as a list of byte chunks, EOF being the end of the
list or an empty chunk; a real execution always returns at most the free
buffer space, which the `wfReads` side condition below captures. -/

/-- The loop of `send::client::start` after the `Start` block: `buf` is
`buffer[..cursor]` and `reads` the chunks returned by the remaining
`client.read` calls. -/
def framerLoop (tl : Nat) (flush : Bool) (cid : Nat) :
    List Nat → List (List Nat) → List (List Nat)
  | buf, [] => [blockNew tl .end_ cid (some buf)]
  | buf, chunk :: rest =>
      if chunk.length = 0 then [blockNew tl .end_ cid (some buf)]
      else
        let buf' := buf ++ chunk
        if flush ∨ tl - SERIALIZE_OVERHEAD ≤ buf'.length then
          blockNew tl .data cid (some buf') :: framerLoop tl flush cid [] rest
        else framerLoop tl flush cid buf' rest

/-- `send::client::start`: the full list of blocks the framer submits to the
encoder channel, in order. -/
def sendFramerBlocks (tl : Nat) (flush : Bool) (cid : Nat) (reads : List (List Nat)) :
    List (List Nat) :=
  blockNew tl .start cid none :: framerLoop tl flush cid [] reads

/-- `send::heartbeat::start` submits `Block::new(Heartbeat, raptorq, 0, None)`. -/
def heartbeatBlock (tl : Nat) : List Nat := blockNew tl .heartbeat 0 none

/-- `send::server::start` submits `Block::new(Abort, raptorq, client_id, None)`
when the per-client framer fails. -/
def abortBlock (tl : Nat) (cid : Nat) : List Nat := blockNew tl .abort cid none

/-- Side condition making a chunk list a possible sequence of `read` return
values: every chunk is nonempty (a 0-byte read is EOF) and no chunk exceeds
the free space `max_data_len - cursor` of the buffer at the time of the
read. -/
def wfReads (maxLen : Nat) (flush : Bool) : Nat → List (List Nat) → Bool
  | _, [] => true
  | bufLen, chunk :: rest =>
      decide (chunk.length ≠ 0) && decide (chunk.length ≤ maxLen - bufLen) &&
        wfReads maxLen flush
          (if flush ∨ maxLen ≤ bufLen + chunk.length then 0 else bufLen + chunk.length) rest

/-- The set of blocks any sender worker can submit to the encoder channel:
the per-client framer's blocks, the heartbeat ticker's block, and the abort
block injected by the server worker on framer failure. -/
def SenderSubmitted (tl : Nat) (flush : Bool) (cid : Nat) (reads : List (List Nat))
    (b : List Nat) : Prop :=
  b ∈ sendFramerBlocks tl flush cid reads ∨ b = heartbeatBlock tl ∨ b = abortBlock tl cid

/-- C5 counterexample: in throughput mode (`flush` off) a client that sends
2 bytes and then reaches EOF before the frame buffer fills makes the framer
submit an `End` block whose `payload_len` field is 2, not 0 — a non-Data
frame carrying a payload.  (`tl = 13`, so `max_data_len = 4`; the read
sequence `[[1,2]]` is a legal sequence of `read` results.) -/
theorem sender_invariants_counterexample :
    wfReads 4 false 0 [[1, 2]] = true ∧
    blockNew 13 .end_ 7 (some [1, 2]) ∈ sendFramerBlocks 13 false 7 [[1, 2]] ∧
    blockTypeOf (blockNew 13 .end_ 7 (some [1, 2])) = .ok .end_ ∧
    payloadLenOf (blockNew 13 .end_ 7 (some [1, 2])) = some 2 ∧ (2 : Nat) ≠ 0 := by
  refine ⟨by decide, by decide, rfl, by decide, by decide⟩

theorem framerLoop_mem (tl : Nat) (flush : Bool) (cid : Nat) :
    ∀ (reads : List (List Nat)) (buf b : List Nat),
      buf.length ≤ tl - SERIALIZE_OVERHEAD →
      wfReads (tl - SERIALIZE_OVERHEAD) flush buf.length reads = true →
      b ∈ framerLoop tl flush cid buf reads →
      ∃ d : List Nat, (b = blockNew tl .data cid (some d) ∨ b = blockNew tl .end_ cid (some d)) ∧
        d.length ≤ tl - SERIALIZE_OVERHEAD
  | [], buf, b, hbuf, _, hmem => by
      unfold framerLoop at hmem
      simp at hmem
      exact ⟨buf, Or.inr hmem, hbuf⟩
  | chunk :: rest, buf, b, hbuf, hwf, hmem => by
      unfold wfReads at hwf
      simp only [Bool.and_eq_true, decide_eq_true_eq] at hwf
      obtain ⟨⟨hne, hle⟩, hwfrest⟩ := hwf
      unfold framerLoop at hmem
      rw [if_neg hne] at hmem
      simp only [] at hmem
      have hbuflen : (buf ++ chunk).length = buf.length + chunk.length := by simp
      by_cases hcond : flush = true ∨ tl - SERIALIZE_OVERHEAD ≤ (buf ++ chunk).length
      · have hcond' : flush = true ∨ tl - SERIALIZE_OVERHEAD ≤ buf.length + chunk.length := by
          rw [hbuflen] at hcond; exact hcond
        rw [if_pos hcond] at hmem
        rcases List.mem_cons.mp hmem with hb | hb
        · exact ⟨buf ++ chunk, Or.inl hb, by rw [hbuflen]; omega⟩
        · have hwf0 : wfReads (tl - SERIALIZE_OVERHEAD) flush 0 rest = true := by
            rw [if_pos hcond'] at hwfrest; exact hwfrest
          exact framerLoop_mem tl flush cid rest [] b (by simp) hwf0 hb
      · have hcond' : ¬ (flush = true ∨ tl - SERIALIZE_OVERHEAD ≤ buf.length + chunk.length) := by
          rw [hbuflen] at hcond; exact hcond
        rw [if_neg hcond] at hmem
        have hwf1 : wfReads (tl - SERIALIZE_OVERHEAD) flush (buf ++ chunk).length rest
            = true := by
          rw [if_neg hcond'] at hwfrest; rw [hbuflen]; exact hwfrest
        exact framerLoop_mem tl flush cid rest (buf ++ chunk) b
          (by rw [hbuflen]; omega) hwf1 hmem

/-- C5 (amended): every block submitted to the encoder channel by a sender
worker (per-client framer, heartbeat ticker, or abort injection) has a
`payload_len` at most `transfer_length - 9`; if its kind is neither `Data`
nor `End` its `payload_len` field is 0 (an `End` block may carry the bytes
still buffered at EOF); and if its kind is `Heartbeat` its `client_id`
field is 0. -/
theorem sender_submitted_invariants (tl : Nat) (flush : Bool) (cid : Nat)
    (reads : List (List Nat)) (b : List Nat)
    (htl : 9 ≤ tl) (htl32 : tl < 2 ^ 32) (hcid : cid < 2 ^ 32)
    (hwf : wfReads (tl - SERIALIZE_OVERHEAD) flush 0 reads = true)
    (hb : SenderSubmitted tl flush cid reads b) :
    ∃ (kind : BlockType) (L : Nat),
      blockTypeOf b = .ok kind ∧ payloadLenOf b = some L ∧
      L ≤ tl - SERIALIZE_OVERHEAD ∧
      (kind ≠ .data ∧ kind ≠ .end_ → L = 0) ∧
      (kind = .heartbeat → clientIdOf b = some 0) := by
  have hso : SERIALIZE_OVERHEAD = 9 := rfl
  rcases hb with hb | hb | hb
  · rcases List.mem_cons.mp hb with hb | hb
    · subst hb
      exact ⟨.start, 0, blockTypeOf_blockNew_none tl .start cid htl,
        payloadLenOf_blockNew_none tl .start cid htl, by omega,
        fun _ => rfl, fun hk => by cases hk⟩
    · obtain ⟨d, hd, hdlen⟩ := framerLoop_mem tl flush cid reads [] b (by simp) hwf hb
      have hd32 : d.length < 2 ^ 32 := by omega
      rcases hd with hb' | hb' <;> subst hb'
      · exact ⟨.data, d.length, blockTypeOf_blockNew_some tl .data cid d,
          payloadLenOf_blockNew_some tl .data cid d hd32, hdlen,
          fun h => absurd rfl h.1, fun hk => by cases hk⟩
      · exact ⟨.end_, d.length, blockTypeOf_blockNew_some tl .end_ cid d,
          payloadLenOf_blockNew_some tl .end_ cid d hd32, hdlen,
          fun h => absurd rfl h.2, fun hk => by cases hk⟩
  · subst hb
    exact ⟨.heartbeat, 0, blockTypeOf_blockNew_none tl .heartbeat 0 htl,
      payloadLenOf_blockNew_none tl .heartbeat 0 htl, by omega,
      fun _ => rfl, fun _ => clientIdOf_blockNew_none tl .heartbeat 0 htl (by omega)⟩
  · subst hb
    exact ⟨.abort, 0, blockTypeOf_blockNew_none tl .abort cid htl,
      payloadLenOf_blockNew_none tl .abort cid htl, by omega,
      fun _ => rfl, fun hk => by cases hk⟩

theorem sender_submitted_invariants_witness :
    ∃ (kind : BlockType) (L : Nat),
      blockTypeOf (heartbeatBlock 13) = .ok kind ∧ payloadLenOf (heartbeatBlock 13) = some L ∧
      L ≤ 13 - SERIALIZE_OVERHEAD ∧
      (kind ≠ .data ∧ kind ≠ .end_ → L = 0) ∧
      (kind = .heartbeat → clientIdOf (heartbeatBlock 13) = some 0) :=
  sender_submitted_invariants 13 true 5 [[9]] (heartbeatBlock 13)
    (by decide) (by decide) (by decide) (by decide) (Or.inr (Or.inl rfl))

/-! ## Receiver per-client writer (src/receive/client.rs).

The writer loops on its queue: `recv` (or `recv_timeout(abort_timeout)`; we
only feed `timeout` events when that is configured), propagates a timeout
or an invalid block type as an error return (`?`), reads the payload
(aborting on out-of-bounds), writes it if nonempty, then acts on the kind:
`Abort` calls `client_end(sink, false)` and returns, `End` flushes, calls
`client_end(sink, true)` and returns, anything else keeps looping.  Sink
writes and flushes are modelled as always succeeding; `written` collects
the bytes passed to `write_all` and `ends` the `ok` arguments of the
`client_end` calls, in order. -/

/-- One queue observation of the writer: a received block, or expiry of the
configured `abort_timeout`. -/
inductive CEvent where
  | block (b : List Nat)
  | timeout
deriving DecidableEq, Repr

/-- How the writer loop finished: still blocked on `recv`, returned `Ok`
after `End`/`Abort`, or returned an error (`?`). -/
inductive CStatus where
  | running
  | done
  | failed
deriving DecidableEq, Repr

structure CResult where
  written : List Nat
  ends : List Bool
  status : CStatus
deriving DecidableEq, Repr

/-- `receive::client::start`, as a function of the writer's queue events. -/
def clientRun : List CEvent → CResult
  | [] => ⟨[], [], .running⟩
  | .timeout :: _ => ⟨[], [], .failed⟩
  | .block b :: rest =>
      match blockTypeOf b with
      | .error _ => ⟨[], [], .failed⟩
      | .ok bt =>
          match payloadOf b with
          | none => ⟨[], [], .failed⟩
          | some payload =>
              match bt with
              | .abort => ⟨payload, [false], .done⟩
              | .end_ => ⟨payload, [true], .done⟩
              | _ =>
                  let r := clientRun rest
                  ⟨payload ++ r.written, r.ends, r.status⟩

/-- C3 counterexample: when the `abort_timeout` expires on the queue
receive, the writer returns an error without ever calling `client_end`: the
list of `client_end` calls is empty, not `[false]` as the claim requires. -/
theorem client_end_timeout_counterexample :
    clientRun [CEvent.timeout] = ⟨[], [], .failed⟩ ∧ ([] : List Bool) ≠ [false] :=
  ⟨rfl, by decide⟩

/-- The event that makes the writer loop stop, per the amended claim: the
first of a timeout, an undecodable block (invalid kind byte or payload
out of bounds), an `End` block, or an `Abort` block. -/
inductive StopKind where
  | timeoutStop
  | badBlock
  | endStop
  | abortStop
deriving DecidableEq, Repr

/-- Spec-side classifier: the first stopping event of the queue, if any. -/
def firstStop : List CEvent → Option StopKind
  | [] => none
  | .timeout :: _ => some .timeoutStop
  | .block b :: rest =>
      match blockTypeOf b with
      | .error _ => some .badBlock
      | .ok bt =>
          match payloadOf b with
          | none => some .badBlock
          | some _ =>
              match bt with
              | .abort => some .abortStop
              | .end_ => some .endStop
              | _ => firstStop rest

/-- C3 (amended): for every transfer handled by a receiver per-client
writer, `client_end` is called at most once: exactly once with `ok = true`
when the transfer ends with an `End` frame, exactly once with `ok = false`
when it ends with an `Abort` frame; on an `abort_timeout` expiry (and on
any other error return) the writer returns an error and `client_end` is
not called at all. -/
theorem client_end_calls (events : List CEvent) :
    ((clientRun events).ends = [true] ↔ firstStop events = some .endStop) ∧
    ((clientRun events).ends = [false] ↔ firstStop events = some .abortStop) ∧
    (firstStop events = some .timeoutStop → (clientRun events).ends = []) ∧
    (clientRun events).ends.length ≤ 1 := by
  induction events with
  | nil => simp [clientRun, firstStop]
  | cons e rest ih =>
      cases e with
      | timeout => simp [clientRun, firstStop]
      | block b =>
          unfold clientRun firstStop
          cases hbt : blockTypeOf b with
          | error err => simp
          | ok bt =>
              cases hp : payloadOf b with
              | none => simp
              | some payload =>
                  cases bt <;> simpa using ih

/-! ## Reblock stage (src/receive/reblock.rs).

State per the source: a 256-entry array of packet buckets (`blocks_data`),
a 256-entry `blocks_ignore` boolean array, the current head `cur_id : u8`,
and the `reset` flag.  Note that the source constant is
`WINDOW_WIDTH: u8 = u8::MAX / 2`, which is `255 / 2 = 127` in integer
division — not 128.

An encoding packet on the wire is a 4-byte header `(source_block_number:
u8, …)` plus one symbol; the reblock stage parses each datagram with
`raptorq::EncodingPacket::deserialize` (external crate) only to read its
`source_block_number`.  Modelled from the spec: a packet is a structure
carrying its `source_block_number`, its encoding symbol id, and — as the
ghost content used by the spec-modelled FEC decoder — the bytes of the
block it encodes. -/

/-- `WINDOW_WIDTH = u8::MAX / 2 = 127` (source line 7 of reblock.rs). -/
def WINDOW_WIDTH : Nat := 255 / 2

/-- Modelled from the spec: a `raptorq::EncodingPacket` as seen by the
receiver, reduced to its header fields plus the ghost block content. -/
structure Packet where
  sbn : Nat
  esi : Nat
  content : List Nat
deriving DecidableEq, Repr

instance : Inhabited Packet := ⟨⟨0, 0, []⟩⟩

/-- The reblock worker state. -/
structure RbState where
  data : Nat → List Packet
  ignore : Nat → Bool
  cur : Nat
  reset : Bool

/-- Output messages of the reblock stage on the `to_decode` channel
(`Reassembled::Block` / `Reassembled::Error`). -/
inductive RbOut where
  | block (id : Nat) (packets : List Packet)
  | error
deriving DecidableEq, Repr

/-- The reset performed on the first datagram after `reset` was raised
(reblock.rs lines 50-72): clear every bucket, mark everything ignored, then
mark the `WINDOW_WIDTH` ids starting at the datagram's block number as
accepted.  `markAccepted` is the `while id != last` loop, unrolled by its
(always `WINDOW_WIDTH`) iteration count. -/
def markAccepted (ignore : Nat → Bool) (id : Nat) : Nat → (Nat → Bool)
  | 0 => ignore
  | k + 1 => markAccepted (fun j => if j = id % 256 then false else ignore j) ((id + 1) % 256) k

def rbReset (head : Nat) : RbState :=
  { data := fun _ => []
    ignore := markAccepted (fun _ => true) head WINDOW_WIDTH
    cur := head % 256
    reset := false }

/-- Total number of buffered packets; used as fuel for the advance loop
(each iteration drains a bucket of at least `min_nb_packets ≥ 1` packets,
except the final too-far break). -/
def rbTotal (st : RbState) : Nat :=
  ((List.range 256).map (fun j => (st.data j).length)).sum

attribute [irreducible] rbTotal

/-- The ignore-array update performed when the head block is forwarded
(reblock.rs lines 108-111): `blocks_ignore[cur_id] = true` then
`blocks_ignore[cur_id + WINDOW_WIDTH] = false`. -/
def advanceIgnore (ignore : Nat → Bool) (cur : Nat) : Nat → Bool := fun j =>
  if j = (cur + WINDOW_WIDTH) % 256 then false
  else if j = cur % 256 then true
  else ignore j

/-- The `while blocks_data[cur_id].len() >= min_nb_packets` loop of
reblock.rs lines 95-121: forward the head bucket, re-ignore the head id,
accept the id `cur + WINDOW_WIDTH`, and either signal a too-far loss (and
request a reset, leaving `cur_id` unchanged) or advance the head. -/
def rbAdvance (minNb : Nat) : Nat → RbState → RbState × List RbOut
  | 0, st => (st, [])
  | fuel + 1, st =>
      if minNb ≤ (st.data (st.cur % 256)).length then
        let packets := st.data (st.cur % 256)
        let data1 : Nat → List Packet := fun j => if j = st.cur % 256 then [] else st.data j
        let opposite := (st.cur + WINDOW_WIDTH) % 256
        let ignore1 : Nat → Bool := advanceIgnore st.ignore st.cur
        if (data1 opposite).isEmpty then
          let st1 : RbState :=
            { data := data1, ignore := ignore1, cur := (st.cur + 1) % 256, reset := st.reset }
          let p := rbAdvance minNb fuel st1
          (p.1, .block (st.cur % 256) packets :: p.2)
        else
          ({ data := data1, ignore := ignore1, cur := st.cur % 256, reset := true },
            [.block (st.cur % 256) packets, .error])
      else (st, [])

/-- Push one parsed packet into its bucket if its block id is currently
accepted (reblock.rs lines 74-93; `Single` and `Multiple` datagrams both
reduce to this per-packet step). -/
def rbPush (st : RbState) (p : Packet) : RbState :=
  let id := p.sbn % 256
  if st.ignore id = false then
    { st with data := fun j => if j = id then st.data j ++ [p] else st.data j }
  else st

/-- One `recv` of datagrams: perform the pending reset keyed on the first
datagram's block number, push every packet of the batch, then run the
advance loop. -/
def rbHandleRecv (minNb : Nat) (st : RbState) (ps : List Packet) : RbState × List RbOut :=
  let st1 := if st.reset then rbReset ((ps.headD default).sbn) else st
  let st2 := ps.foldl rbPush st1
  rbAdvance minNb (rbTotal st2) st2

/-- One `recv_timeout` expiry (reblock.rs lines 28-45): raise `reset`, and
emit a synchronization-lost marker if some ignored bucket is non-empty. -/
def rbHandleTimeout (st : RbState) : RbState × List RbOut :=
  let damaged := (List.range 256).any (fun id => st.ignore id && !(st.data id).isEmpty)
  ({ st with reset := true }, if damaged then [.error] else [])

/-- One iteration of the reblock loop. -/
inductive REvent where
  | timeout
  | recv (ps : List Packet)

def rbStep (minNb : Nat) (st : RbState) : REvent → RbState × List RbOut
  | .timeout => rbHandleTimeout st
  | .recv ps => rbHandleRecv minNb st ps

/-- Run the reblock loop over a sequence of events. -/
def rbRun (minNb : Nat) : RbState → List REvent → RbState × List RbOut
  | st, [] => (st, [])
  | st, e :: es =>
      let p1 := rbStep minNb st e
      let p2 := rbRun minNb p1.1 es
      (p2.1, p1.2 ++ p2.2)

/-- Run the reblock loop but stop as soon as the `reset` flag is raised
again: started on a state whose `reset` flag is pending, the events
processed (beginning with the datagram that keys the reset) form one
inter-reset segment — the next event would begin a new reset. -/
def rbRunSegment (minNb : Nat) : RbState → List REvent → RbState × List RbOut
  | st, [] => (st, [])
  | st, e :: es =>
      let p1 := rbStep minNb st e
      if p1.1.reset then (p1.1, p1.2)
      else
        let p2 := rbRunSegment minNb p1.1 es
        (p2.1, p1.2 ++ p2.2)

/-- The initial reblock state (fresh buckets, everything ignored,
`cur_id = 0`, `reset = true`). -/
def rbInit : RbState :=
  { data := fun _ => [], ignore := fun _ => true, cur := 0, reset := true }

/-! ## The sliding acceptance window (C4) -/

theorem markAccepted_false_iff (k : Nat) :
    ∀ (ignore : Nat → Bool) (id j : Nat),
      markAccepted ignore id k j = false ↔
        (∃ t, t < k ∧ j = (id + t) % 256) ∨ ignore j = false := by
  induction k with
  | zero =>
      intro ignore id j
      simp [markAccepted]
  | succ k ih =>
      intro ignore id j
      unfold markAccepted
      rw [ih]
      have hupd : ((fun j0 => if j0 = id % 256 then false else ignore j0) j = false) ↔
          (j = id % 256 ∨ ignore j = false) := by
        by_cases h : j = id % 256 <;> simp [h]
      rw [hupd]
      constructor
      · rintro (⟨t, ht, rfl⟩ | h | h)
        · refine Or.inl ⟨t + 1, by omega, ?_⟩
          omega
        · refine Or.inl ⟨0, by omega, ?_⟩
          omega
        · exact Or.inr h
      · rintro (⟨t, ht, rfl⟩ | h)
        · cases t with
          | zero => refine Or.inr (Or.inl ?_); omega
          | succ t => refine Or.inl ⟨t, by omega, ?_⟩; omega
        · exact Or.inr (Or.inr h)

theorem reset_ignore_iff (head j : Nat) (hj : j < 256) :
    (rbReset head).ignore j = false ↔ (j + 256 - head % 256) % 256 < WINDOW_WIDTH := by
  show markAccepted (fun _ => true) head WINDOW_WIDTH j = false ↔ _
  rw [markAccepted_false_iff]
  simp only [Bool.true_eq_false, or_false]
  unfold WINDOW_WIDTH
  constructor
  · rintro ⟨t, ht, rfl⟩
    omega
  · intro hlt
    exact ⟨(j + 256 - head % 256) % 256, hlt, by omega⟩

/-- Number of block ids currently marked accepted. -/
def acceptedCount (ignore : Nat → Bool) : Nat :=
  ((Finset.range 256).filter (fun j => ignore j = false)).card

theorem acceptedCount_window (ignore : Nat → Bool) (c : Nat)
    (hw : ∀ j, j < 256 → (ignore j = false ↔ (j + 256 - c % 256) % 256 < WINDOW_WIDTH)) :
    acceptedCount ignore = WINDOW_WIDTH := by
  unfold acceptedCount
  have hset : (Finset.range 256).filter (fun j => ignore j = false) =
      (Finset.range WINDOW_WIDTH).image (fun t => (c + t) % 256) := by
    ext j
    simp only [Finset.mem_filter, Finset.mem_range, Finset.mem_image]
    constructor
    · rintro ⟨hj, hfalse⟩
      have := (hw j hj).mp hfalse
      refine ⟨(j + 256 - c % 256) % 256, this, ?_⟩
      omega
    · rintro ⟨t, ht, rfl⟩
      have hj : (c + t) % 256 < 256 := Nat.mod_lt _ (by omega)
      refine ⟨hj, (hw _ hj).mpr ?_⟩
      unfold WINDOW_WIDTH at ht ⊢
      omega
  rw [hset, Finset.card_image_of_injOn, Finset.card_range]
  intro t1 h1 t2 h2 heq
  simp only [] at heq
  simp only [Finset.coe_range, Set.mem_Iio] at h1 h2
  unfold WINDOW_WIDTH at h1 h2
  omega

/-- C4 counterexample: immediately after a reset keyed on block id 0,
exactly 127 ids are accepted — `WINDOW_WIDTH` is `u8::MAX / 2 = 127`, not
128 as the claim has it. -/
theorem reblock_window_counterexample :
    acceptedCount (rbReset 0).ignore = 127 ∧ (127 : Nat) ≠ 128 := by
  refine ⟨?_, by decide⟩
  have := acceptedCount_window (rbReset 0).ignore 0 (fun j hj => reset_ignore_iff 0 j hj)
  exact this.trans (by decide)

/-- C4 (amended): after every reblock reset triggered by a datagram whose
packet carries block id `head`, exactly the `WINDOW_WIDTH = 127`
consecutive ids `[head .. head+127)` (mod 256) are accepted and the other
129 are ignored; and each time the head block is forwarded the head id
becomes ignored and the id `head + 127` (mod 256) becomes accepted, so
exactly 127 ids are accepted at all times between resets. -/
theorem reblock_window_invariant (head cur : Nat) (ign : Nat → Bool)
    (hcur : cur < 256)
    (hw : ∀ j, j < 256 → (ign j = false ↔ (j + 256 - cur) % 256 < WINDOW_WIDTH)) :
    (∀ j, j < 256 →
      ((rbReset head).ignore j = false ↔ (j + 256 - head % 256) % 256 < WINDOW_WIDTH)) ∧
    acceptedCount (rbReset head).ignore = WINDOW_WIDTH ∧
    (∀ j, j < 256 →
      (advanceIgnore ign cur j = false ↔ (j + 256 - (cur + 1) % 256) % 256 < WINDOW_WIDTH)) ∧
    acceptedCount (advanceIgnore ign cur) = WINDOW_WIDTH ∧
    WINDOW_WIDTH = 127 := by
  have hWW : WINDOW_WIDTH = 127 := rfl
  have hreset := fun j hj => reset_ignore_iff head j hj
  have hstep : ∀ j, j < 256 →
      (advanceIgnore ign cur j = false ↔ (j + 256 - (cur + 1) % 256) % 256 < WINDOW_WIDTH) := by
    intro j hj
    have hwj := hw j hj
    rw [hWW] at hwj
    unfold advanceIgnore
    rw [hWW]
    by_cases hopp : j = (cur + 127) % 256
    · rw [if_pos hopp]
      refine ⟨fun _ => by omega, fun _ => rfl⟩
    · rw [if_neg hopp]
      by_cases hhead : j = cur % 256
      · rw [if_pos hhead]
        refine ⟨fun h => absurd h (by decide), fun hlt => absurd hlt ?_⟩
        omega
      · rw [if_neg hhead]
        rw [hwj]
        omega
  exact ⟨hreset, acceptedCount_window _ head hreset, hstep,
    acceptedCount_window _ (cur + 1) hstep, rfl⟩

set_option maxRecDepth 4000 in
theorem reblock_window_invariant_witness :
    (∀ j, j < 256 →
      ((rbReset 0).ignore j = false ↔ (j + 256 - 0 % 256) % 256 < WINDOW_WIDTH)) ∧
    acceptedCount (rbReset 0).ignore = WINDOW_WIDTH ∧
    (∀ j, j < 256 →
      (advanceIgnore (fun j => decide (WINDOW_WIDTH ≤ j)) 0 j = false ↔
        (j + 256 - (0 + 1) % 256) % 256 < WINDOW_WIDTH)) ∧
    acceptedCount (advanceIgnore (fun j => decide (WINDOW_WIDTH ≤ j)) 0) = WINDOW_WIDTH ∧
    WINDOW_WIDTH = 127 :=
  reblock_window_invariant 0 0 (fun j => decide (WINDOW_WIDTH ≤ j)) (by decide)
    (by decide)

/-! ## Encoder pool sequencer (src/send/encoding.rs and send/mod.rs).

`n` encoder workers share the inbound frame channel and two mutexed `u8`
counters, both initialised to 0 (`Sender::new`).  Holding `block_to_encode`
a worker takes the next frame, claims the counter value as its `block_id`
and post-increments (wrapping `u8`); after encoding, it spins until
`block_to_send` equals its `block_id`, submits its packet set to `to_send`
and post-increments that counter.  The interleaving of workers is modelled
as a labelled transition system; `out` records the `block_id` of each
packet set submitted to the transmit channel, in submission order. -/

/-- Local state of one encoder worker: between frames, or holding a claimed
`block_id` while encoding / spinning on `block_to_send`. -/
inductive WStatus where
  | idle
  | encoded (id : Nat)
deriving DecidableEq, Repr

structure EncState (n : Nat) where
  workers : Fin n → WStatus
  nextToEncode : Nat
  nextToSend : Nat
  out : List Nat

/-- The two atomic transitions a worker can take under the sequencer
protocol: claim a frame (under the `block_to_encode` mutex), or pass the
`block_to_send` spin test and submit. -/
inductive EncStep (n : Nat) : EncState n → EncState n → Prop
  | claim (st : EncState n) (w : Fin n) (h : st.workers w = .idle) :
      EncStep n st
        { workers := Function.update st.workers w (.encoded st.nextToEncode)
          nextToEncode := (st.nextToEncode + 1) % 256
          nextToSend := st.nextToSend
          out := st.out }
  | submit (st : EncState n) (w : Fin n) (id : Nat) (h : st.workers w = .encoded id)
      (hsend : st.nextToSend = id) :
      EncStep n st
        { workers := Function.update st.workers w .idle
          nextToEncode := st.nextToEncode
          nextToSend := (id + 1) % 256
          out := st.out ++ [id] }

/-- Both counters start at 0, all workers idle, nothing submitted. -/
def encInit (n : Nat) : EncState n :=
  { workers := fun _ => .idle, nextToEncode := 0, nextToSend := 0, out := [] }

/-- C9: in every interleaving of the `n` encoder workers stepping through
the `(next_to_encode, next_to_send)` sequencer protocol, the i-th packet
set submitted to the transmit channel carries `block_id = i mod 256`:
packet sets are emitted in exactly the order their frames were taken off
the inbound channel, despite parallel encoding. -/
theorem encoder_emission_order (n : Nat) (st : EncState n)
    (h : Relation.ReflTransGen (EncStep n) (encInit n) st) :
    st.nextToSend = st.out.length % 256 ∧
    st.out = (List.range st.out.length).map (fun i => i % 256) := by
  induction h with
  | refl => exact ⟨rfl, rfl⟩
  | tail hsteps hstep ih =>
      obtain ⟨ihsend, ihout⟩ := ih
      cases hstep with
      | claim w hidle => exact ⟨ihsend, ihout⟩
      | submit w id hworker hsend =>
          constructor
          · simp only [List.length_append, List.length_cons, List.length_nil]
            omega
          · simp only [List.length_append, List.length_cons, List.length_nil]
            rw [List.range_succ, List.map_append]
            rw [← ihout]
            simp only [List.map_cons, List.map_nil]
            rw [hsend] at ihsend
            rw [ihsend]

/-- A two-step demonstration run of one worker: claim block 0, submit it. -/
def encDemoFinal : EncState 1 :=
  { workers := Function.update
      (Function.update (encInit 1).workers 0 (.encoded (encInit 1).nextToEncode)) 0 .idle
    nextToEncode := ((encInit 1).nextToEncode + 1) % 256
    nextToSend := (0 + 1) % 256
    out := (encInit 1).out ++ [0] }

theorem encoder_emission_order_witness :
    encDemoFinal.nextToSend = encDemoFinal.out.length % 256 ∧
    encDemoFinal.out = (List.range encDemoFinal.out.length).map (fun i => i % 256) := by
  have h1 : EncStep 1 (encInit 1)
      { workers := Function.update (encInit 1).workers 0 (.encoded (encInit 1).nextToEncode)
        nextToEncode := ((encInit 1).nextToEncode + 1) % 256
        nextToSend := (encInit 1).nextToSend
        out := (encInit 1).out } :=
    EncStep.claim (encInit 1) 0 rfl
  have h2 : EncStep 1
      { workers := Function.update (encInit 1).workers 0 (.encoded (encInit 1).nextToEncode)
        nextToEncode := ((encInit 1).nextToEncode + 1) % 256
        nextToSend := (encInit 1).nextToSend
        out := (encInit 1).out } encDemoFinal :=
    EncStep.submit _ 0 0 (by simp [Function.update, encInit]) rfl
  exact encoder_emission_order 1 encDemoFinal
    (Relation.ReflTransGen.tail (Relation.ReflTransGen.tail Relation.ReflTransGen.refl h1) h2)

/-! ## In-order emission of the reblock stage (C8) -/

/-- The block ids carried by the `Reassembled::Block` messages of an output
trace, in emission order. -/
def blockIds (outs : List RbOut) : List Nat :=
  outs.filterMap (fun o => match o with | .block id _ => some id | .error => none)

/-- `m` consecutive block ids starting at `c` (mod 256). -/
def consecFrom (c : Nat) : Nat → List Nat
  | 0 => []
  | m + 1 => c % 256 :: consecFrom (c + 1) m

theorem blockIds_append (xs ys : List RbOut) :
    blockIds (xs ++ ys) = blockIds xs ++ blockIds ys := by
  unfold blockIds
  exact List.filterMap_append xs ys _

theorem consecFrom_congr (m : Nat) :
    ∀ c c', c % 256 = c' % 256 → consecFrom c m = consecFrom c' m := by
  induction m with
  | zero => intro c c' _; rfl
  | succ m ih =>
      intro c c' h
      unfold consecFrom
      rw [h, ih (c + 1) (c' + 1) (by omega)]

theorem consecFrom_append (k : Nat) :
    ∀ (c m : Nat), consecFrom c m ++ consecFrom (c + m) k = consecFrom c (m + k) := by
  intro c m
  induction m generalizing c with
  | zero => simp [consecFrom]
  | succ m ih =>
      show c % 256 :: (consecFrom (c + 1) m ++ consecFrom (c + (m + 1)) k) = _
      have harg : c + (m + 1) = (c + 1) + m := by omega
      rw [harg, ih (c + 1)]
      show c % 256 :: consecFrom (c + 1) (m + k) = consecFrom c (m + 1 + k)
      have : m + 1 + k = (m + k) + 1 := by omega
      rw [this]
      rfl

theorem rbPush_fields (st : RbState) (p : Packet) :
    (rbPush st p).cur = st.cur ∧ (rbPush st p).reset = st.reset := by
  unfold rbPush
  by_cases h : st.ignore (p.sbn % 256) = false <;> simp [h]

theorem foldl_rbPush_fields (ps : List Packet) :
    ∀ st : RbState, ((ps.foldl rbPush st).cur = st.cur ∧ (ps.foldl rbPush st).reset = st.reset) := by
  induction ps with
  | nil => intro st; exact ⟨rfl, rfl⟩
  | cons p ps ih =>
      intro st
      have h1 := rbPush_fields st p
      have h2 := ih (rbPush st p)
      exact ⟨h2.1.trans h1.1, h2.2.trans h1.2⟩

theorem rbAdvance_spec (minNb : Nat) :
    ∀ (fuel : Nat) (st : RbState),
      ∃ m, blockIds (rbAdvance minNb fuel st).2 = consecFrom st.cur m ∧
        ((rbAdvance minNb fuel st).1.reset = false →
          st.reset = false ∧ (rbAdvance minNb fuel st).1.cur % 256 = (st.cur + m) % 256) := by
  intro fuel
  induction fuel with
  | zero =>
      intro st
      exact ⟨0, rfl, fun hres =>
        ⟨hres, by show st.cur % 256 = (st.cur + 0) % 256; omega⟩⟩
  | succ fuel ih =>
      intro st
      unfold rbAdvance
      by_cases hlen : minNb ≤ (st.data (st.cur % 256)).length
      · rw [if_pos hlen]
        simp only []
        by_cases hopp :
            ((fun j => if j = st.cur % 256 then [] else st.data j)
              ((st.cur + WINDOW_WIDTH) % 256)).isEmpty
        · rw [if_pos hopp]
          obtain ⟨m1, hids, hcur⟩ :=
            ih { data := fun j => if j = st.cur % 256 then [] else st.data j
                 ignore := advanceIgnore st.ignore st.cur
                 cur := (st.cur + 1) % 256
                 reset := st.reset }
          dsimp only at hids hcur
          refine ⟨m1 + 1, ?_, ?_⟩
          · show st.cur % 256 :: blockIds _ = _
            rw [hids]
            rw [consecFrom_congr m1 ((st.cur + 1) % 256) (st.cur + 1) (by omega)]
            rfl
          · intro hres
            obtain ⟨hres1, hcur1⟩ := hcur hres
            refine ⟨hres1, ?_⟩
            rw [hcur1]
            omega
        · rw [if_neg hopp]
          refine ⟨1, rfl, ?_⟩
          intro hres
          exact absurd hres (by simp)
      · rw [if_neg hlen]
        exact ⟨0, rfl, fun hres =>
          ⟨hres, by show st.cur % 256 = (st.cur + 0) % 256; omega⟩⟩

theorem rbHandleRecv_spec (minNb : Nat) (st : RbState) (ps : List Packet) :
    ∃ m, blockIds (rbHandleRecv minNb st ps).2 =
        consecFrom (if st.reset then rbReset ((ps.headD default).sbn) else st).cur m ∧
      ((rbHandleRecv minNb st ps).1.reset = false →
        (rbHandleRecv minNb st ps).1.cur % 256 =
          ((if st.reset then rbReset ((ps.headD default).sbn) else st).cur + m) % 256) := by
  unfold rbHandleRecv
  simp only []
  obtain ⟨hcur, hres⟩ := foldl_rbPush_fields ps
    (if st.reset then rbReset ((ps.headD default).sbn) else st)
  obtain ⟨m, hids, hcurm⟩ := rbAdvance_spec minNb
    (rbTotal (ps.foldl rbPush (if st.reset then rbReset ((ps.headD default).sbn) else st)))
    (ps.foldl rbPush (if st.reset then rbReset ((ps.headD default).sbn) else st))
  refine ⟨m, ?_, ?_⟩
  · rw [hids, hcur]
  · intro h
    rw [(hcurm h).2, hcur]

theorem rbHandleTimeout_spec (st : RbState) :
    blockIds (rbHandleTimeout st).2 = [] ∧ (rbHandleTimeout st).1.reset = true := by
  unfold rbHandleTimeout
  constructor
  · by_cases h : (List.range 256).any (fun id => st.ignore id && !(st.data id).isEmpty) <;>
      simp [h, blockIds]
  · rfl

set_option maxRecDepth 100000 in
set_option maxHeartbeats 2000000 in
theorem rbRunSegment_out (minNb : Nat) :
    ∀ (events : List REvent) (st : RbState), st.reset = false →
      ∃ m, blockIds (rbRunSegment minNb st events).2 = consecFrom st.cur m := by
  intro events
  induction events with
  | nil => intro st _; exact ⟨0, rfl⟩
  | cons e es ih =>
      intro st hst
      unfold rbRunSegment
      simp only []
      cases e with
      | timeout =>
          obtain ⟨hids, hres⟩ := rbHandleTimeout_spec st
          rw [show rbStep minNb st .timeout = rbHandleTimeout st from rfl]
          rw [if_pos hres]
          exact ⟨0, hids⟩
      | recv ps =>
          rw [show rbStep minNb st (.recv ps) = rbHandleRecv minNb st ps from rfl]
          obtain ⟨m1, hids, hcur⟩ := rbHandleRecv_spec minNb st ps
          rw [if_neg (by simp [hst]) ] at hids hcur
          set q := rbHandleRecv minNb st ps with hq
          by_cases hres : q.1.reset
          · rw [if_pos hres]
            exact ⟨m1, hids⟩
          · rw [if_neg hres]
            obtain ⟨m2, hids2⟩ := ih q.1 (by simpa using hres)
            refine ⟨m1 + m2, ?_⟩
            rw [blockIds_append, hids, hids2]
            rw [consecFrom_congr m2 q.1.cur (st.cur + m1)
              (hcur (by simpa using hres))]
            exact consecFrom_append m2 st.cur m1

set_option maxRecDepth 100000 in
set_option maxHeartbeats 2000000 in
/-- C8: between any two resets of the reblock stage, the block messages it
forwards to the decoder queue carry strictly increasing (mod 256) block
ids, consecutive starting from the reset head (the block number of the
first datagram of the segment), regardless of how the packets of the
currently-accepted window arrive. -/
theorem reblock_inorder_emission (minNb : Nat) (st : RbState) (d : Packet)
    (ds : List Packet) (rest : List REvent) (hreset : st.reset = true) :
    ∃ m, blockIds (rbRunSegment minNb st (.recv (d :: ds) :: rest)).2 =
      consecFrom d.sbn m := by
  unfold rbRunSegment
  simp only []
  rw [show rbStep minNb st (.recv (d :: ds)) = rbHandleRecv minNb st (d :: ds) from rfl]
  obtain ⟨m1, hids, hcur⟩ := rbHandleRecv_spec minNb st (d :: ds)
  rw [if_pos hreset] at hids hcur
  have hhead : (rbReset (((d :: ds).headD default).sbn)).cur = d.sbn % 256 := rfl
  rw [hhead] at hids hcur
  set q := rbHandleRecv minNb st (d :: ds) with hq
  by_cases hres : q.1.reset
  · rw [if_pos hres]
    exact ⟨m1, hids.trans (consecFrom_congr m1 (d.sbn % 256) d.sbn (by omega))⟩
  · rw [if_neg hres]
    obtain ⟨m2, hids2⟩ := rbRunSegment_out minNb rest q.1 (by simpa using hres)
    refine ⟨m1 + m2, ?_⟩
    rw [blockIds_append, hids, hids2]
    rw [consecFrom_congr m1 (d.sbn % 256) d.sbn (by omega)]
    rw [consecFrom_congr m2 q.1.cur (d.sbn + m1)
      (by rw [hcur (by simpa using hres)]; omega)]
    exact consecFrom_append m2 d.sbn m1

theorem reblock_inorder_emission_witness :
    ∃ m, blockIds (rbRunSegment 1 rbInit
        (.recv (⟨3, 0, [7]⟩ :: []) :: [])).2 = consecFrom 3 m :=
  reblock_inorder_emission 1 rbInit ⟨3, 0, [7]⟩ [] [] rfl

/-! ## Spec-modelled FEC codec (external crate `raptorq`).

Modelled from the spec: "A full encoding of one Block consists of
`symbol_count` source packets and `repair_count` additional repair packets;
any `symbol_count` of the total (the minimum) is sufficient to decode."
Each abstract packet carries the whole block byte vector as ghost content;
the decoder succeeds exactly when it is given at least `symbol_count`
packets of the block. -/

/-- Modelled from the spec: `RaptorQ::encode` — the ordered packet set of
one block (`sc` source symbols followed by `rc` repair symbols). -/
def rqEncode (sc rc : Nat) (id : Nat) (data : List Nat) : List Packet :=
  (List.range (sc + rc)).map (fun k => ⟨id, k, data⟩)

/-- Modelled from the spec: `RaptorQ::decode` — succeeds (returning the
block bytes) iff at least `symbol_count` packets are supplied. -/
def rqDecode (sc : Nat) (packets : List Packet) : Option (List Nat) :=
  if sc ≤ packets.length then some (packets.headD default).content else none

/-- The decoder pool (src/receive/decode.rs): maps each reblock message to
`None` (synchronization lost: an `Error` marker or a failed decode) or
`Some` decoded block, preserving order. -/
def decodeRun (sc : Nat) (outs : List RbOut) : List (Option (List Nat)) :=
  outs.map (fun o => match o with
    | .error => none
    | .block _ ps => rqDecode sc ps)

/-- The encoding stage under the C9 emission-order guarantee: block `i` of
the inbound frame sequence is encoded with `block_id = i mod 256` and its
packet set is emitted in order; with zero loss the UDP packets arrive in
the same order, one datagram per packet. -/
def encodeStream (sc rc : Nat) : Nat → List (List Nat) → List Packet
  | _, [] => []
  | i, b :: bs => rqEncode sc rc (i % 256) b ++ encodeStream sc rc (i + 1) bs

/-! ## The reblock stage under zero loss and in-order arrival -/

/-- Reblock state that is "clean between blocks": no pending reset, head at
`i mod 256`, bucket `i mod 256` holding `acc`, all other buckets empty, and
the acceptance window starting at the head. -/
def BucketInv (st : RbState) (i : Nat) (acc : List Packet) : Prop :=
  st.reset = false ∧ st.cur = i % 256 ∧
  st.data (i % 256) = acc ∧ (∀ j, j ≠ i % 256 → st.data j = []) ∧
  (∀ j, j < 256 → (st.ignore j = false ↔ (j + 256 - i % 256) % 256 < WINDOW_WIDTH))

theorem rbRun_cons (minNb : Nat) (st : RbState) (e : REvent) (es : List REvent) :
    rbRun minNb st (e :: es) =
      ((rbRun minNb (rbStep minNb st e).1 es).1,
        (rbStep minNb st e).2 ++ (rbRun minNb (rbStep minNb st e).1 es).2) := rfl

theorem rbRun_append (minNb : Nat) (xs : List REvent) :
    ∀ (ys : List REvent) (st : RbState),
      rbRun minNb st (xs ++ ys) =
        ((rbRun minNb (rbRun minNb st xs).1 ys).1,
          (rbRun minNb st xs).2 ++ (rbRun minNb (rbRun minNb st xs).1 ys).2) := by
  induction xs with
  | nil => intro ys st; rfl
  | cons e es ih =>
      intro ys st
      rw [show e :: es ++ ys = e :: (es ++ ys) from rfl]
      rw [rbRun_cons minNb st e (es ++ ys), rbRun_cons minNb st e es]
      rw [ih ys (rbStep minNb st e).1]
      simp [List.append_assoc]

theorem rbPush_ignore (st : RbState) (p : Packet) : (rbPush st p).ignore = st.ignore := by
  unfold rbPush
  by_cases h : st.ignore (p.sbn % 256) = false <;> simp [h]

theorem rbAdvance_noop (minNb : Nat) (st : RbState)
    (h : (st.data (st.cur % 256)).length < minNb) :
    ∀ fuel, rbAdvance minNb fuel st = (st, []) := by
  intro fuel
  cases fuel with
  | zero => rfl
  | succ fuel =>
      unfold rbAdvance
      rw [if_neg (by omega)]

theorem rbTotal_ge_bucket (st : RbState) (j : Nat) (hj : j < 256) :
    (st.data j).length ≤ rbTotal st := by
  rw [show rbTotal st = ((List.range 256).map (fun j => (st.data j).length)).sum from by
    unfold rbTotal; rfl]
  exact List.single_le_sum (fun x _ => Nat.zero_le x) _
    (List.mem_map_of_mem _ (List.mem_range.mpr hj))

theorem rbStep_recv_single (minNb : Nat) (st : RbState) (p : Packet) (h : st.reset = false) :
    rbStep minNb st (.recv [p]) =
      rbAdvance minNb (rbTotal (rbPush st p)) (rbPush st p) := by
  show rbHandleRecv minNb st [p] = _
  unfold rbHandleRecv
  simp only []
  rw [if_neg (by simp [h])]
  rfl

theorem rbStep_recv_reset (minNb : Nat) (st : RbState) (p : Packet) (h : st.reset = true) :
    rbStep minNb st (.recv [p]) = rbStep minNb (rbReset p.sbn) (.recv [p]) := by
  show rbHandleRecv minNb st [p] = rbHandleRecv minNb (rbReset p.sbn) [p]
  unfold rbHandleRecv
  simp only []
  rw [if_pos h, if_neg (by simp [rbReset])]
  rfl

theorem rbRun_from_reset (minNb : Nat) (st : RbState) (p : Packet) (rest : List REvent)
    (h : st.reset = true) :
    rbRun minNb st (.recv [p] :: rest) = rbRun minNb (rbReset p.sbn) (.recv [p] :: rest) := by
  rw [rbRun_cons, rbRun_cons, rbStep_recv_reset minNb st p h]

theorem rbPush_accepted (st : RbState) (p : Packet) (h : st.ignore (p.sbn % 256) = false) :
    rbPush st p =
      { st with data := fun j => if j = p.sbn % 256 then st.data j ++ [p] else st.data j } := by
  unfold rbPush
  simp only []
  rw [if_pos h]

theorem rbPush_ignored (st : RbState) (p : Packet) (h : st.ignore (p.sbn % 256) = true) :
    rbPush st p = st := by
  unfold rbPush
  simp only []
  rw [if_neg (by simp [h])]

theorem windowAt_advanceIgnore (ign : Nat → Bool) (cur : Nat) (hcur : cur < 256)
    (hw : ∀ j, j < 256 → (ign j = false ↔ (j + 256 - cur) % 256 < WINDOW_WIDTH)) :
    ∀ j, j < 256 →
      (advanceIgnore ign cur j = false ↔ (j + 256 - (cur + 1) % 256) % 256 < WINDOW_WIDTH) := by
  have hWW : WINDOW_WIDTH = 127 := rfl
  intro j hj
  have hwj := hw j hj
  rw [hWW] at hwj
  unfold advanceIgnore
  rw [hWW]
  by_cases hopp : j = (cur + 127) % 256
  · rw [if_pos hopp]
    refine ⟨fun _ => by omega, fun _ => rfl⟩
  · rw [if_neg hopp]
    by_cases hhead : j = cur % 256
    · rw [if_pos hhead]
      refine ⟨fun h => absurd h (by decide), fun hlt => absurd hlt ?_⟩
      omega
    · rw [if_neg hhead]
      rw [hwj]
      omega

theorem bucketInv_rbReset (h : Nat) : BucketInv (rbReset h) h [] := by
  refine ⟨rfl, rfl, rfl, fun j hj => rfl, ?_⟩
  intro j hj
  exact reset_ignore_iff h j hj

theorem rbAdvance_emit (minNb fuelk : Nat) (st : RbState)
    (hlen : minNb ≤ (st.data (st.cur % 256)).length)
    (hothers : ∀ j, j ≠ st.cur % 256 → st.data j = [])
    (hminNb : 1 ≤ minNb) :
    rbAdvance minNb (fuelk + 1) st =
      ({ data := fun j => if j = st.cur % 256 then [] else st.data j
         ignore := advanceIgnore st.ignore st.cur
         cur := (st.cur + 1) % 256
         reset := st.reset }, [.block (st.cur % 256) (st.data (st.cur % 256))]) := by
  unfold rbAdvance
  rw [if_pos hlen]
  simp only []
  have hne : (st.cur + WINDOW_WIDTH) % 256 ≠ st.cur % 256 := by
    rw [show WINDOW_WIDTH = 127 from rfl]
    omega
  have hopp : ((fun j => if j = st.cur % 256 then [] else st.data j)
      ((st.cur + WINDOW_WIDTH) % 256)).isEmpty = true := by
    simp only [if_neg hne]
    rw [hothers _ hne]
    rfl
  rw [if_pos hopp]
  have hinner : rbAdvance minNb fuelk
      { data := fun j => if j = st.cur % 256 then [] else st.data j
        ignore := advanceIgnore st.ignore st.cur
        cur := (st.cur + 1) % 256
        reset := st.reset } =
      ({ data := fun j => if j = st.cur % 256 then [] else st.data j
         ignore := advanceIgnore st.ignore st.cur
         cur := (st.cur + 1) % 256
         reset := st.reset }, []) := by
    refine rbAdvance_noop minNb _ ?_ fuelk
    simp only []
    have h1 : (st.cur + 1) % 256 % 256 = (st.cur + 1) % 256 := by omega
    rw [h1]
    have h2 : (st.cur + 1) % 256 ≠ st.cur % 256 := by omega
    rw [if_neg h2, hothers _ h2]
    simp
    omega
  rw [hinner]

theorem bucketInv_accepted (st : RbState) (i : Nat) (acc : List Packet)
    (hinv : BucketInv st i acc) : st.ignore (i % 256) = false := by
  obtain ⟨_, _, _, _, hwin⟩ := hinv
  refine (hwin (i % 256) (by omega)).mpr ?_
  rw [show WINDOW_WIDTH = 127 from rfl]
  omega

theorem rbStep_fill (minNb : Nat) (st : RbState) (i : Nat) (acc : List Packet) (p : Packet)
    (hinv : BucketInv st i acc) (hp : p.sbn = i % 256)
    (hlen : acc.length + 1 < minNb) :
    rbStep minNb st (.recv [p]) =
      ({ st with data := fun j => if j = i % 256 then st.data j ++ [p] else st.data j }, []) ∧
    BucketInv { st with data := fun j => if j = i % 256 then st.data j ++ [p] else st.data j }
      i (acc ++ [p]) := by
  obtain ⟨hres, hcur, hbucket, hothers, hwin⟩ := hinv
  have hp256 : p.sbn % 256 = i % 256 := by rw [hp]; omega
  have hacc : st.ignore (p.sbn % 256) = false := by
    rw [hp256]
    exact bucketInv_accepted st i acc ⟨hres, hcur, hbucket, hothers, hwin⟩
  have hpush : rbPush st p =
      { st with data := fun j => if j = i % 256 then st.data j ++ [p] else st.data j } := by
    rw [rbPush_accepted st p hacc]
    simp only [hp256]
  constructor
  · rw [rbStep_recv_single minNb st p hres, hpush]
    refine rbAdvance_noop minNb _ ?_ _
    simp only []
    rw [hcur]
    have h1 : i % 256 % 256 = i % 256 := by omega
    rw [h1, if_pos rfl, hbucket]
    simp only [List.length_append, List.length_cons, List.length_nil]
    omega
  · refine ⟨hres, hcur, ?_, ?_, hwin⟩
    · simp [hbucket]
    · intro j hj
      simp only [if_neg hj]
      exact hothers j hj

theorem rbStep_emit_aux (minNb k : Nat) (st1 : RbState) (i : Nat) (P : List Packet)
    (hres1 : st1.reset = false) (hcur1 : st1.cur = i % 256)
    (hbucket1 : st1.data (i % 256) = P) (hP : P.length = minNb) (hminNb : 1 ≤ minNb)
    (hothers1 : ∀ j, j ≠ i % 256 → st1.data j = [])
    (hwin1 : ∀ j, j < 256 → (st1.ignore j = false ↔ (j + 256 - i % 256) % 256 < WINDOW_WIDTH))
    (hk : rbTotal st1 = k + 1) :
    ∃ st2, rbAdvance minNb (rbTotal st1) st1 = (st2, [.block (i % 256) P]) ∧
      BucketInv st2 (i + 1) [] := by
  have h256 : i % 256 % 256 = i % 256 := by omega
  have hbk : st1.data (st1.cur % 256) = P := by rw [hcur1, h256, hbucket1]
  have hlen1 : minNb ≤ (st1.data (st1.cur % 256)).length := by rw [hbk, hP]
  have hothers2 : ∀ j, j ≠ st1.cur % 256 → st1.data j = [] := by
    intro j hj
    rw [hcur1, h256] at hj
    exact hothers1 j hj
  rw [hk, rbAdvance_emit minNb k st1 hlen1 hothers2 hminNb]
  have hcurm : st1.cur % 256 = i % 256 := by rw [hcur1, h256]
  refine ⟨{ data := fun j => if j = st1.cur % 256 then [] else st1.data j
            ignore := advanceIgnore st1.ignore st1.cur
            cur := (st1.cur + 1) % 256
            reset := st1.reset }, ?_, ?_, ?_, ?_, ?_, ?_⟩
  · rw [hbk, hcurm]
  · exact hres1
  · show (st1.cur + 1) % 256 = (i + 1) % 256
    rw [hcur1]
    omega
  · show (if (i + 1) % 256 = st1.cur % 256 then [] else st1.data ((i + 1) % 256)) = []
    rw [hcurm, if_neg (by omega : ¬ (i + 1) % 256 = i % 256)]
    exact hothers1 _ (by omega)
  · intro j hj
    show (if j = st1.cur % 256 then [] else st1.data j) = []
    rw [hcurm]
    by_cases hc : j = i % 256
    · rw [if_pos hc]
    · rw [if_neg hc]
      exact hothers1 j hc
  · intro j hj
    show advanceIgnore st1.ignore st1.cur j = false ↔ _
    rw [hcur1]
    have := windowAt_advanceIgnore st1.ignore (i % 256) (by omega)
      (fun j hj => hwin1 j hj) j hj
    rw [this]
    constructor <;> intro h <;> omega

theorem rbStep_emit (minNb : Nat) (st : RbState) (i : Nat) (acc : List Packet) (p : Packet)
    (hinv : BucketInv st i acc) (hp : p.sbn = i % 256)
    (hlen : acc.length + 1 = minNb) (hminNb : 1 ≤ minNb) :
    ∃ st2, rbStep minNb st (.recv [p]) = (st2, [.block (i % 256) (acc ++ [p])]) ∧
      BucketInv st2 (i + 1) [] := by
  obtain ⟨hres, hcur, hbucket, hothers, hwin⟩ := hinv
  have hp256 : p.sbn % 256 = i % 256 := by rw [hp]; omega
  have hacc : st.ignore (p.sbn % 256) = false := by
    rw [hp256]
    exact bucketInv_accepted st i acc ⟨hres, hcur, hbucket, hothers, hwin⟩
  have hpush : rbPush st p =
      { st with data := fun j => if j = i % 256 then st.data j ++ [p] else st.data j } := by
    rw [rbPush_accepted st p hacc]
    simp only [hp256]
  rw [rbStep_recv_single minNb st p hres, hpush]
  have hfuel : 1 ≤ rbTotal
      ({ st with data := fun j => if j = i % 256 then st.data j ++ [p] else st.data j }) := by
    have := rbTotal_ge_bucket
      ({ st with data := fun j => if j = i % 256 then st.data j ++ [p] else st.data j } : RbState)
      (i % 256) (by omega)
    dsimp only at this
    rw [if_pos rfl] at this
    simp only [List.length_append, List.length_cons, List.length_nil] at this
    omega
  obtain ⟨k, hk⟩ : ∃ k, rbTotal
      ({ st with data := fun j => if j = i % 256 then st.data j ++ [p] else st.data j }) = k + 1 :=
    ⟨rbTotal ({ st with
        data := fun j => if j = i % 256 then st.data j ++ [p] else st.data j }) - 1, by omega⟩
  refine rbStep_emit_aux minNb k _ i (acc ++ [p]) hres hcur ?_ ?_ hminNb ?_ ?_ hk
  · show (if i % 256 = i % 256 then st.data (i % 256) ++ [p] else st.data (i % 256)) = acc ++ [p]
    rw [if_pos rfl, hbucket]
  · simp only [List.length_append, List.length_cons, List.length_nil]
    omega
  · intro j hj
    simp only [if_neg hj]
    exact hothers j hj
  · intro j hj
    exact hwin j hj

theorem rbStep_drop (minNb : Nat) (st : RbState) (i : Nat) (p : Packet)
    (hinv : BucketInv st (i + 1) []) (hp : p.sbn = i % 256) (hminNb : 1 ≤ minNb) :
    rbStep minNb st (.recv [p]) = (st, []) := by
  obtain ⟨hres, hcur, hbucket, hothers, hwin⟩ := hinv
  have hp256 : p.sbn % 256 = i % 256 := by rw [hp]; omega
  have hig : st.ignore (p.sbn % 256) = true := by
    rw [hp256]
    have hiff := hwin (i % 256) (by omega)
    have hnot : ¬ ((i % 256 + 256 - (i + 1) % 256) % 256 < WINDOW_WIDTH) := by
      rw [show WINDOW_WIDTH = 127 from rfl]
      omega
    cases h : st.ignore (i % 256) with
    | false => exact absurd (hiff.mp h) hnot
    | true => rfl
  rw [rbStep_recv_single minNb st p hres, rbPush_ignored st p hig]
  refine rbAdvance_noop minNb st ?_ _
  rw [hcur]
  have h1 : (i + 1) % 256 % 256 = (i + 1) % 256 := by omega
  rw [h1, hbucket]
  simpa using hminNb

theorem rbRun_single (minNb : Nat) (st : RbState) (e : REvent) :
    rbRun minNb st [e] = rbStep minNb st e := by
  rw [rbRun_cons]
  show ((rbStep minNb st e).1, (rbStep minNb st e).2 ++ []) = _
  rw [List.append_nil]

theorem rbRun_fill (minNb i : Nat) :
    ∀ (ps : List Packet) (st : RbState) (acc : List Packet),
      BucketInv st i acc → (∀ p ∈ ps, p.sbn = i % 256) →
      acc.length + ps.length < minNb →
      ∃ st', rbRun minNb st (ps.map (fun p => .recv [p])) = (st', []) ∧
        BucketInv st' i (acc ++ ps) := by
  intro ps
  induction ps with
  | nil =>
      intro st acc hinv _ _
      exact ⟨st, rfl, by simpa using hinv⟩
  | cons p ps ih =>
      intro st acc hinv hall hlen
      obtain ⟨hstep, hinv1⟩ := rbStep_fill minNb st i acc p hinv (hall p (by simp))
        (by simp at hlen; omega)
      rw [List.map_cons, rbRun_cons, hstep]
      obtain ⟨st', hrun, hinv'⟩ := ih _ (acc ++ [p]) hinv1
        (fun q hq => hall q (by simp [hq])) (by simp at hlen ⊢; omega)
      refine ⟨st', ?_, by simpa using hinv'⟩
      dsimp only
      rw [hrun]
      rfl

theorem rbRun_drop (minNb i : Nat) (hminNb : 1 ≤ minNb) :
    ∀ (ps : List Packet) (st : RbState),
      BucketInv st (i + 1) [] → (∀ p ∈ ps, p.sbn = i % 256) →
      rbRun minNb st (ps.map (fun p => .recv [p])) = (st, []) := by
  intro ps
  induction ps with
  | nil => intro st _ _; rfl
  | cons p ps ih =>
      intro st hinv hall
      rw [List.map_cons, rbRun_cons, rbStep_drop minNb st i p hinv (hall p (by simp)) hminNb]
      dsimp only
      rw [ih st hinv (fun q hq => hall q (by simp [hq]))]
      rfl

theorem rbRun_block (minNb rc i : Nat) (d : List Nat) (st : RbState)
    (hinv : BucketInv st i []) (hminNb : 1 ≤ minNb) :
    ∃ st', rbRun minNb st ((rqEncode minNb rc (i % 256) d).map (fun p => .recv [p])) =
        (st', [.block (i % 256) ((List.range minNb).map
          (fun k => (⟨i % 256, k, d⟩ : Packet)))]) ∧
      BucketInv st' (i + 1) [] := by
  obtain ⟨m, hm⟩ : ∃ m, minNb = m + 1 := ⟨minNb - 1, by omega⟩
  have hdecomp : rqEncode minNb rc (i % 256) d =
      ((List.range m).map (fun k => (⟨i % 256, k, d⟩ : Packet)) ++
        [(⟨i % 256, m, d⟩ : Packet)]) ++
      ((List.range rc).map (fun k => (⟨i % 256, minNb + k, d⟩ : Packet))) := by
    unfold rqEncode
    rw [List.range_add, List.map_append]
    congr 1
    · rw [hm, List.range_succ, List.map_append]
      rfl
    · rw [List.map_map]
      rfl
  rw [hdecomp, List.map_append, List.map_append]
  rw [rbRun_append, rbRun_append]
  obtain ⟨st1, hrun1, hinv1⟩ := rbRun_fill minNb i
    ((List.range m).map (fun k => (⟨i % 256, k, d⟩ : Packet))) st [] hinv
    (by intro p hp; simp at hp; obtain ⟨k, _, hk⟩ := hp; rw [← hk])
    (by simp; omega)
  rw [hrun1]
  dsimp only
  obtain ⟨st2, hstep2, hinv2⟩ := rbStep_emit minNb st1 i
    ((List.range m).map (fun k => (⟨i % 256, k, d⟩ : Packet))) ⟨i % 256, m, d⟩
    (by simpa using hinv1) rfl (by simp; omega) hminNb
  rw [List.map_singleton, rbRun_single, hstep2]
  dsimp only
  rw [rbRun_drop minNb i hminNb _ st2 hinv2
    (by intro p hp; simp at hp; obtain ⟨k, _, hk⟩ := hp; rw [← hk])]
  refine ⟨st2, ?_, hinv2⟩
  dsimp only
  rw [List.append_nil, List.nil_append]
  have hpk : (List.range m).map (fun k => (⟨i % 256, k, d⟩ : Packet)) ++
      [(⟨i % 256, m, d⟩ : Packet)] =
      (List.range minNb).map (fun k => (⟨i % 256, k, d⟩ : Packet)) := by
    rw [hm, List.range_succ, List.map_append]
    rfl
  rw [hpk]

/-- The reblock output trace expected under zero loss: one `Block` message
per inbound frame, ids consecutive, each carrying the first `symbol_count`
packets of its block. -/
def expectedOuts (sc : Nat) : Nat → List (List Nat) → List RbOut
  | _, [] => []
  | i, d :: ds =>
      .block (i % 256) ((List.range sc).map (fun k => (⟨i % 256, k, d⟩ : Packet))) ::
        expectedOuts sc (i + 1) ds

theorem rbRun_stream (sc rc : Nat) (hsc : 1 ≤ sc) :
    ∀ (blocks : List (List Nat)) (i : Nat) (st : RbState), BucketInv st i [] →
      ∃ st', rbRun sc st ((encodeStream sc rc i blocks).map (fun p => .recv [p])) =
        (st', expectedOuts sc i blocks) ∧ BucketInv st' (i + blocks.length) [] := by
  intro blocks
  induction blocks with
  | nil =>
      intro i st hinv
      exact ⟨st, rfl, by simpa using hinv⟩
  | cons d ds ih =>
      intro i st hinv
      show ∃ st', rbRun sc st
        (((rqEncode sc rc (i % 256) d ++ encodeStream sc rc (i + 1) ds).map
          (fun p => REvent.recv [p]))) = _ ∧ _
      rw [List.map_append, rbRun_append]
      obtain ⟨st1, hrun1, hinv1⟩ := rbRun_block sc rc i d st hinv hsc
      rw [hrun1]
      dsimp only
      obtain ⟨st2, hrun2, hinv2⟩ := ih (i + 1) st1 hinv1
      rw [hrun2]
      refine ⟨st2, rfl, ?_⟩
      have harith : i + 1 + ds.length = i + (ds.length + 1) := by omega
      rw [harith] at hinv2
      simpa using hinv2

theorem rbRun_stream_init (sc rc : Nat) (hsc : 1 ≤ sc) (b : List Nat) (bs : List (List Nat)) :
    (rbRun sc rbInit ((encodeStream sc rc 0 (b :: bs)).map (fun p => .recv [p]))).2 =
      expectedOuts sc 0 (b :: bs) := by
  obtain ⟨m, hm⟩ : ∃ m, sc + rc = m + 1 := ⟨sc + rc - 1, by omega⟩
  have hhead : ∃ rest, (encodeStream sc rc 0 (b :: bs)).map (fun p => REvent.recv [p]) =
      .recv [(⟨0 % 256, 0, b⟩ : Packet)] :: rest := by
    show ∃ rest, ((rqEncode sc rc (0 % 256) b ++ encodeStream sc rc 1 bs).map
      (fun p => REvent.recv [p])) = _
    unfold rqEncode
    rw [hm, List.range_succ_eq_map]
    exact ⟨_, rfl⟩
  obtain ⟨rest, hrest⟩ := hhead
  rw [hrest, rbRun_from_reset sc rbInit _ rest rfl, ← hrest]
  have hinv0 : BucketInv (rbReset (Packet.sbn ⟨0 % 256, 0, b⟩)) 0 [] := by
    have := bucketInv_rbReset (Packet.sbn ⟨0 % 256, 0, b⟩)
    simpa using this
  obtain ⟨st', hrun, _⟩ := rbRun_stream sc rc hsc (b :: bs) 0 (rbReset (Packet.sbn ⟨0 % 256, 0, b⟩)) hinv0
  rw [hrun]

theorem decodeRun_expectedOuts (sc : Nat) (hsc : 1 ≤ sc) :
    ∀ (blocks : List (List Nat)) (i : Nat),
      decodeRun sc (expectedOuts sc i blocks) = blocks.map some := by
  intro blocks
  induction blocks with
  | nil => intro i; rfl
  | cons d ds ih =>
      intro i
      show decodeRun sc (.block (i % 256) _ :: expectedOuts sc (i + 1) ds) = _
      unfold decodeRun
      rw [List.map_cons]
      dsimp only
      have hhead : rqDecode sc ((List.range sc).map
          (fun k => (⟨i % 256, k, d⟩ : Packet))) = some d := by
        unfold rqDecode
        rw [if_pos (by simp)]
        obtain ⟨m, hm⟩ : ∃ m, sc = m + 1 := ⟨sc - 1, by omega⟩
        rw [hm, List.range_succ_eq_map m]
        rfl
      rw [hhead]
      have htail := ih (i + 1)
      unfold decodeRun at htail
      rw [htail, List.map_cons]

/-! ## Dispatch stage (src/receive/dispatch.rs).

The dispatch worker owns `active_transfers`; we record its externally
visible actions as events: `announce cid` is the `(client_id, recvq)`
message on `to_clients`, and `send cid b` is a block sent on the client's
queue.  `active` is modelled as the list of active client ids (a `Start`
re-inserts, `Abort`/`End` removes after forwarding, a sync-lost `None`
aborts every active transfer and clears the map).  The `ended_transfers`
map only retains queues for lazy purging and is never consulted for
routing, so it is not modelled.  The `Bool` result marks the reachable
index-out-of-bounds abort in `Block::client_id` on a short block. -/

inductive DEvent where
  | announce (cid : Nat)
  | send (cid : Nat) (b : List Nat)
deriving DecidableEq, Repr

def dispatchStep (tl : Nat) (active : List Nat) (item : Option (List Nat)) :
    List Nat × List DEvent × Bool :=
  match item with
  | none =>
      ([], active.map (fun c => .send c (blockNew tl .abort c none)), false)
  | some b =>
      match blockTypeOf b with
      | .error _ => (active, [], false)
      | .ok bt =>
          match clientIdOf b with
          | none => (active, [], true)
          | some cid =>
              match bt with
              | .heartbeat => (active, [], false)
              | .start =>
                  (active.filter (fun c => c != cid) ++ [cid],
                    [.announce cid, .send cid b], false)
              | .data =>
                  if cid ∈ active then (active, [.send cid b], false) else (active, [], false)
              | .abort | .end_ =>
                  if cid ∈ active then
                    (active.filter (fun c => c != cid), [.send cid b], false)
                  else (active, [], false)

def dispatchRun (tl : Nat) : List Nat → List (Option (List Nat)) → List Nat × List DEvent × Bool
  | active, [] => (active, [], false)
  | active, item :: rest =>
      let r := dispatchStep tl active item
      if r.2.2 then (r.1, r.2.1, true)
      else
        let r2 := dispatchRun tl r.1 rest
        (r2.1, r.2.1 ++ r2.2.1, r2.2.2)

/-- The per-client queue contents: the blocks dispatch sent to `cid`'s
queue, in order, as the writer's receive events. -/
def queueFor (cid : Nat) (evs : List DEvent) : List CEvent :=
  evs.filterMap (fun e => match e with
    | .send c b => if c = cid then some (.block b) else none
    | .announce _ => none)

theorem dispatchRun_transfer (tl cid : Nat) (htl : 9 ≤ tl) (hcid : cid < 2 ^ 32) :
    ∀ (datas : List (List Nat)), (∀ d ∈ datas, d.length < 2 ^ 32) →
      ∀ (lastBuf : List Nat), lastBuf.length < 2 ^ 32 →
      (dispatchRun tl [cid] ((datas.map (fun d => some (blockNew tl .data cid (some d)))) ++
          [some (blockNew tl .end_ cid (some lastBuf))])).2.1 =
        (datas.map (fun d => DEvent.send cid (blockNew tl .data cid (some d)))) ++
          [DEvent.send cid (blockNew tl .end_ cid (some lastBuf))] := by
  intro datas
  induction datas with
  | nil =>
      intro _ lastBuf hlast
      show (dispatchRun tl [cid] [some (blockNew tl .end_ cid (some lastBuf))]).2.1 = _
      unfold dispatchRun dispatchStep
      dsimp only
      rw [blockTypeOf_blockNew_some, clientIdOf_blockNew_some tl .end_ cid lastBuf hcid]
      dsimp only
      rw [if_pos (by simp : cid ∈ [cid])]
      rfl
  | cons d ds ih =>
      intro hall lastBuf hlast
      rw [List.map_cons, List.cons_append]
      show (dispatchRun tl [cid]
        (some (blockNew tl .data cid (some d)) :: _)).2.1 = _
      unfold dispatchRun dispatchStep
      dsimp only
      rw [blockTypeOf_blockNew_some, clientIdOf_blockNew_some tl .data cid d hcid]
      dsimp only
      rw [if_pos (by simp : cid ∈ [cid])]
      dsimp only
      rw [show ((dispatchRun tl [cid] (List.map (fun d => some (blockNew tl BlockType.data cid
        (some d))) ds ++ [some (blockNew tl BlockType.end_ cid (some lastBuf))]))).2.1 =
        (ds.map (fun d => DEvent.send cid (blockNew tl .data cid (some d)))) ++
          [DEvent.send cid (blockNew tl .end_ cid (some lastBuf))] from
        ih (fun x hx => hall x (by simp [hx])) lastBuf hlast]
      rfl

/-- Shape of the framer's output under well-formed reads: some `Data`
blocks followed by exactly one `End` block, whose payloads concatenate to
the whole input stream and each fit the frame. -/
theorem framerLoop_shape (tl : Nat) (flush : Bool) (cid : Nat) :
    ∀ (reads : List (List Nat)) (buf : List Nat),
      buf.length ≤ tl - SERIALIZE_OVERHEAD →
      wfReads (tl - SERIALIZE_OVERHEAD) flush buf.length reads = true →
      ∃ (datas : List (List Nat)) (lastBuf : List Nat),
        framerLoop tl flush cid buf reads =
          datas.map (fun d => blockNew tl .data cid (some d)) ++
            [blockNew tl .end_ cid (some lastBuf)] ∧
        datas.flatten ++ lastBuf = buf ++ reads.flatten ∧
        (∀ d ∈ datas, d.length ≤ tl - SERIALIZE_OVERHEAD) ∧
        lastBuf.length ≤ tl - SERIALIZE_OVERHEAD
  | [], buf, hbuf, _ => by
      refine ⟨[], buf, ?_, by simp, by simp, hbuf⟩
      unfold framerLoop
      simp
  | chunk :: rest, buf, hbuf, hwf => by
      unfold wfReads at hwf
      simp only [Bool.and_eq_true, decide_eq_true_eq] at hwf
      obtain ⟨⟨hne, hle⟩, hwfrest⟩ := hwf
      unfold framerLoop
      rw [if_neg hne]
      simp only []
      have hbuflen : (buf ++ chunk).length = buf.length + chunk.length := by simp
      by_cases hcond : flush = true ∨ tl - SERIALIZE_OVERHEAD ≤ (buf ++ chunk).length
      · have hcond' : flush = true ∨ tl - SERIALIZE_OVERHEAD ≤ buf.length + chunk.length := by
          rw [hbuflen] at hcond; exact hcond
        rw [if_pos hcond]
        have hwf0 : wfReads (tl - SERIALIZE_OVERHEAD) flush 0 rest = true := by
          rw [if_pos hcond'] at hwfrest; exact hwfrest
        obtain ⟨datas, lastBuf, heq, hjoin, hdata, hlast⟩ :=
          framerLoop_shape tl flush cid rest [] (by simp) hwf0
        refine ⟨(buf ++ chunk) :: datas, lastBuf, ?_, ?_, ?_, hlast⟩
        · rw [heq]; rfl
        · simp only [List.flatten_cons, List.append_assoc]
          rw [hjoin]; simp
        · intro d hd
          rcases List.mem_cons.mp hd with hd | hd
          · subst hd; rw [hbuflen]; omega
          · exact hdata d hd
      · have hcond' : ¬ (flush = true ∨ tl - SERIALIZE_OVERHEAD ≤ buf.length + chunk.length) := by
          rw [hbuflen] at hcond; exact hcond
        rw [if_neg hcond]
        have hwf1 : wfReads (tl - SERIALIZE_OVERHEAD) flush (buf ++ chunk).length rest
            = true := by
          rw [if_neg hcond'] at hwfrest; rw [hbuflen]; exact hwfrest
        obtain ⟨datas, lastBuf, heq, hjoin, hdata, hlast⟩ :=
          framerLoop_shape tl flush cid rest (buf ++ chunk) (by rw [hbuflen]; omega) hwf1
        refine ⟨datas, lastBuf, heq, ?_, hdata, hlast⟩
        rw [hjoin]; simp

theorem dispatchRun_start (tl cid : Nat) (htl : 9 ≤ tl) (hcid : cid < 2 ^ 32)
    (rest : List (Option (List Nat))) :
    (dispatchRun tl [] (some (blockNew tl .start cid none) :: rest)).2.1 =
      .announce cid :: .send cid (blockNew tl .start cid none) ::
        (dispatchRun tl [cid] rest).2.1 := by
  conv_lhs => unfold dispatchRun dispatchStep
  dsimp only
  rw [blockTypeOf_blockNew_none tl .start cid htl,
    clientIdOf_blockNew_none tl .start cid htl hcid]
  dsimp only
  rfl

theorem queueFor_announce (cid c : Nat) (evs : List DEvent) :
    queueFor cid (.announce c :: evs) = queueFor cid evs := by
  simp [queueFor]

theorem queueFor_send_self (cid : Nat) (b : List Nat) (evs : List DEvent) :
    queueFor cid (.send cid b :: evs) = .block b :: queueFor cid evs := by
  simp [queueFor]

theorem queueFor_nil (cid : Nat) : queueFor cid [] = [] := rfl

theorem queueFor_sends (cid : Nat) (g : List Nat → List Nat) :
    ∀ (bs : List (List Nat)) (evs : List DEvent),
    queueFor cid ((bs.map (fun d => DEvent.send cid (g d))) ++ evs) =
      bs.map (fun d => CEvent.block (g d)) ++ queueFor cid evs := by
  intro bs
  induction bs with
  | nil => intro evs; rfl
  | cons d ds ih =>
      intro evs
      rw [List.map_cons, List.cons_append, queueFor_send_self, ih, List.map_cons]
      rfl

theorem clientRun_start_cons (b : List Nat) (rest : List CEvent)
    (hbt : blockTypeOf b = .ok .start) (hpl : payloadOf b = some []) :
    clientRun (.block b :: rest) = clientRun rest := by
  conv_lhs => unfold clientRun
  rw [hbt, hpl]
  rfl

theorem clientRun_data_cons (b payload : List Nat) (rest : List CEvent)
    (hbt : blockTypeOf b = .ok .data) (hpl : payloadOf b = some payload) :
    clientRun (.block b :: rest) =
      ⟨payload ++ (clientRun rest).written, (clientRun rest).ends,
        (clientRun rest).status⟩ := by
  conv_lhs => unfold clientRun
  rw [hbt, hpl]

theorem clientRun_end_cons (b payload : List Nat) (rest : List CEvent)
    (hbt : blockTypeOf b = .ok .end_) (hpl : payloadOf b = some payload) :
    clientRun (.block b :: rest) = ⟨payload, [true], .done⟩ := by
  conv_lhs => unfold clientRun
  rw [hbt, hpl]

theorem clientRun_datas (tl cid : Nat) :
    ∀ (datas : List (List Nat)), (∀ d ∈ datas, d.length < 2 ^ 32) →
      ∀ (rest : List CEvent),
      clientRun ((datas.map (fun d => CEvent.block (blockNew tl .data cid (some d)))) ++ rest) =
        ⟨datas.flatten ++ (clientRun rest).written, (clientRun rest).ends,
          (clientRun rest).status⟩ := by
  intro datas
  induction datas with
  | nil => intro _ rest; simp
  | cons d ds ih =>
      intro hall rest
      rw [List.map_cons, List.cons_append,
        clientRun_data_cons (blockNew tl .data cid (some d)) d _
          (blockTypeOf_blockNew_some tl .data cid d)
          (payloadOf_blockNew_some tl .data cid d (hall d (by simp))),
        ih (fun x hx => hall x (by simp [hx])) rest]
      simp

/-- The full zero-loss pipeline, one client: the sender framer's blocks are
FEC-encoded in submission order (`encodeStream`, justified by the encoder
sequencing discipline), every packet arrives in order at the reblock stage,
decoded blocks go through dispatch, and the per-client writer consumes its
queue. -/
def pipelineRun (tl sc rc : Nat) (flush : Bool) (cid : Nat)
    (reads : List (List Nat)) : CResult :=
  clientRun (queueFor cid
    ((dispatchRun tl []
      (decodeRun sc
        ((rbRun sc rbInit
          ((encodeStream sc rc 0 (sendFramerBlocks tl flush cid reads)).map
            (fun p => REvent.recv [p]))).2))).2.1))

/-- C1: for every byte stream fed to a sender per-client framer (as the
chunk list `reads` of successful `read` calls, `reads.flatten` being the
stream B), with zero packet loss and in-order delivery the receiver
pipeline drives the per-client writer to write exactly B to the sink, in
order, and to call `client_end` exactly once with `ok = true`. -/
theorem pipeline_zero_loss (tl sc rc : Nat) (flush : Bool) (cid : Nat)
    (reads : List (List Nat))
    (htl : 9 ≤ tl) (htl32 : tl < 2 ^ 32) (hcid : cid < 2 ^ 32) (hsc : 1 ≤ sc)
    (hwf : wfReads (tl - SERIALIZE_OVERHEAD) flush 0 reads = true) :
    pipelineRun tl sc rc flush cid reads = ⟨reads.flatten, [true], .done⟩ := by
  obtain ⟨datas, lastBuf, heq, hjoin, hdata, hlast⟩ :=
    framerLoop_shape tl flush cid reads [] (by simp) hwf
  have hall : ∀ d ∈ datas, d.length < 2 ^ 32 := fun d hd => by
    have := hdata d hd; omega
  have hlast32 : lastBuf.length < 2 ^ 32 := by omega
  unfold pipelineRun sendFramerBlocks
  rw [heq, rbRun_stream_init sc rc hsc, decodeRun_expectedOuts sc hsc]
  have hmid : ((blockNew tl .start cid none ::
      (datas.map (fun d => blockNew tl .data cid (some d)) ++
        [blockNew tl .end_ cid (some lastBuf)])).map some) =
      some (blockNew tl .start cid none) ::
        ((datas.map (fun d => some (blockNew tl .data cid (some d)))) ++
          [some (blockNew tl .end_ cid (some lastBuf))]) := by
    simp
  rw [hmid, dispatchRun_start tl cid htl hcid,
    dispatchRun_transfer tl cid htl hcid datas hall lastBuf hlast32,
    queueFor_announce, queueFor_send_self,
    queueFor_sends cid (fun d => blockNew tl .data cid (some d)) datas
      [DEvent.send cid (blockNew tl .end_ cid (some lastBuf))],
    queueFor_send_self, queueFor_nil,
    clientRun_start_cons _ _ (blockTypeOf_blockNew_none tl .start cid htl)
      (payloadOf_blockNew_none tl .start cid htl),
    clientRun_datas tl cid datas hall [CEvent.block (blockNew tl .end_ cid (some lastBuf))],
    clientRun_end_cons _ lastBuf [] (blockTypeOf_blockNew_some tl .end_ cid lastBuf)
      (payloadOf_blockNew_some tl .end_ cid lastBuf hlast32)]
  rw [List.nil_append] at hjoin
  dsimp only
  rw [hjoin]

theorem pipeline_zero_loss_witness :
    wfReads (13 - SERIALIZE_OVERHEAD) true 0 [[1, 2]] = true ∧
    pipelineRun 13 1 1 true 7 [[1, 2]] = ⟨[1, 2], [true], CStatus.done⟩ :=
  ⟨by decide, pipeline_zero_loss 13 1 1 true 7 [[1, 2]] (by decide) (by decide)
    (by decide) (by decide) (by decide)⟩
